import Mathlib

/-!
frame_chopper: the frame addressing and re-packing core of `main.cpp`.

A sprite sheet is a flat RGBA byte buffer.  `main` cuts it into a grid of
frames (`getFrame`), keeps every `frameCounterStep`-th one and `saveFile`
lays the kept frames out in a new sheet (`addFrame`); both directions use
the strided row copy `copyPixelBlock`.

Modelling conventions
* a `std::vector<unsigned char>` is a `List UInt8`; an iterator into it is
  the index it points at;
* `int` and `unsigned` values are natural numbers.  In `getFrame` and `main`
  the 32-bit width is written out: an `unsigned` product is taken modulo
  `2 ^ 32`, an `int` sum or product of `2 ^ 31` or more is an overflow, and
  an `unsigned` value of `2 ^ 31` or more does not convert to an `int` of
  the model.  In `saveFile` it is written out for the unsigned subtraction
  of line 88, the one place where a result can fall below zero;
* the `float` arithmetic of lines 68 and 71 is modelled exactly: every
  operation rounds its exact result to a 24-bit significand, ties to even;
* undefined behaviour (an access outside a vector, a division by zero, the
  conversion of a NaN to an integer, an `int` overflow) makes the result
  `none`, and so does a negative `int`, which the model does not hold;
  memory allocation is taken to succeed and the arguments of `main` are the
  values `stoi` returned;
* the loop of `main` takes a fuel argument, one unit per test of the loop
  condition, and gives `none` when the fuel runs out.
-/

namespace FrameChopper

/-- One `unsigned char`. -/
abbrev Byte := UInt8

/-- The C++ alias `ImageData = std::vector<unsigned char>` (line 13). -/
abbrev ImageData := List Byte

/-- The C++ alias `Frame = ImageData` (line 15). -/
abbrev Frame := ImageData

/-- The constant `PixelSize = sizeof(std::uint32_t)` (line 12). -/
def PixelSize : Nat := 4

/-! ## Single-precision floating point -/

/-- A finite non-negative `float`: the rational `num / den`. -/
structure F32 where
  num : Nat
  den : Nat
deriving DecidableEq, Repr

namespace F32

/-- The integer nearest to `a / b`, a tie going to the even neighbour. -/
def roundNearestEven (a b : Nat) : Nat :=
  if 2 * (a % b) < b then a / b
  else if b < 2 * (a % b) then a / b + 1
  else if (a / b) % 2 = 0 then a / b else a / b + 1

/-- The least `k`, counting up from the given one, with `p < q * 2 ^ (24 + k)`. -/
def scaleDown (p q : Nat) : Nat → Nat → Nat
  | 0, k => k
  | fuel + 1, k => if p < q * 2 ^ (24 + k) then k else scaleDown p q fuel (k + 1)

/-- The least `j`, counting up from the given one, with `q * 2 ^ 23 ≤ p * 2 ^ j`. -/
def scaleUp (p q : Nat) : Nat → Nat → Nat
  | 0, j => j
  | fuel + 1, j => if q * 2 ^ 23 ≤ p * 2 ^ j then j else scaleUp p q fuel (j + 1)

/-- The `float` nearest to `p / q` (round to nearest, ties to even, 24-bit
significand).  A value of at least `2 ^ 24` is rounded to a multiple of the
power of two `2 ^ k` that brings it below `2 ^ 24`; a smaller one is first
scaled up by `2 ^ j` into `[2 ^ 23, 2 ^ 24)`.  The exponent range is not
modelled: a quantity of this program is below `2 ^ 128` and, when not zero,
at least `2 ^ (-64)`. -/
def round (p q : Nat) : F32 :=
  if p = 0 then ⟨0, 1⟩
  else if q * 2 ^ 24 ≤ p then
    ⟨roundNearestEven p (q * 2 ^ scaleDown p q p 0) * 2 ^ scaleDown p q p 0, 1⟩
  else
    ⟨roundNearestEven (p * 2 ^ scaleUp p q (q + 23) 0) q, 2 ^ scaleUp p q (q + 23) 0⟩

/-- Conversion of an integer to `float`. -/
def ofNat (n : Nat) : F32 := round n 1

/-- Product of two floats. -/
def mul (a b : F32) : F32 := round (a.num * b.num) (a.den * b.den)

/-- Quotient of two floats; `none` stands for the infinity or NaN that a zero
divisor gives. -/
def div (a b : F32) : Option F32 :=
  if b.num = 0 then none else some (round (a.num * b.den) (a.den * b.num))

/-- The function `std::ceil` on a float (always exact). -/
def ceil (a : F32) : F32 := ⟨(a.num + a.den - 1) / a.den, 1⟩

/-- Conversion of a float to an unsigned integer type: truncation. -/
def toNat (a : F32) : Nat := a.num / a.den

/-- The float `a` is the integer `n`. -/
def IsNat (a : F32) (n : Nat) : Prop := 0 < a.den ∧ a.num = n * a.den

/-- The integer `n` has a significand of at most 24 bits, so it is a float. -/
def Representable (n : Nat) : Prop := ∃ m t, n = m * 2 ^ t ∧ m ≤ 2 ^ 24

end F32

/-! ## 32-bit integers -/

/-- The product of two non-negative `int` values (lines 52 and 125); there is
none when it does not fit 31 bits: signed overflow is undefined. -/
def intMul (a b : Nat) : Option Nat :=
  if a * b < 2 ^ 31 then some (a * b) else none

/-- The sum of two non-negative `int` values (line 146); there is none when it
does not fit 31 bits: signed overflow is undefined. -/
def intAdd (a b : Nat) : Option Nat :=
  if a + b < 2 ^ 31 then some (a + b) else none

/-- The product of two `unsigned` values (lines 141-144 and 150): it wraps
around at `2 ^ 32`. -/
def unsignedMul (a b : Nat) : Nat :=
  a * b % 2 ^ 32

/-- An `unsigned` value passed for an `int` parameter (lines 151 and 154).  From
`2 ^ 31` on the `int` is negative, which the model does not hold. -/
def toInt (u : Nat) : Option Nat :=
  if u < 2 ^ 31 then some u else none

/-! ## The strided block copy (lines 36-62) -/

/-- The call `copy(iIt, iIt + sizeToCopy, oIt)` of line 44, element by element:
`output[oIt + k] = input[iIt + k]` for `k = 0, 1, ...`; `none` when an element
lies outside its vector. -/
def copy (input : ImageData) : Nat → Nat → ImageData → Nat → Option ImageData
  | _, 0, output, _ => some output
  | iIt, sizeToCopy + 1, output, oIt =>
    match input[iIt]? with
    | none => none
    | some v =>
      if oIt < output.length then
        copy input (iIt + 1) sizeToCopy (output.set oIt v) (oIt + 1)
      else none

/-- The function `copyPixelBlock` (lines 36-48): `lines` rows of `sizeToCopy` bytes,
the input cursor advancing by `inputStep` and the output cursor by `outputStep`
after each row.  The result is the output vector after the copy. -/
def copyPixelBlock (input : ImageData) (inputStep outputStep sizeToCopy : Nat) :
    Nat → Nat → ImageData → Nat → Option ImageData
  | 0, _, output, _ => some output
  | lines + 1, iIt, output, oIt =>
    (copy input iIt sizeToCopy output oIt).bind fun output1 =>
      copyPixelBlock input inputStep outputStep sizeToCopy lines
        (iIt + inputStep) output1 (oIt + outputStep)

/-- The function `getFrame` (lines 50-57) on non-negative `int` arguments: a
fresh zero-filled vector of `framePixelLineSize * frameHeight` bytes, an `int`
product, filled from the image at `frameIt`. -/
def getFrame (imageData : ImageData) (frameIt framePixelLineSize filePixelLineSize
    frameHeight : Nat) : Option Frame :=
  (intMul framePixelLineSize frameHeight).bind fun size =>
    copyPixelBlock imageData filePixelLineSize framePixelLineSize framePixelLineSize
      frameHeight frameIt (List.replicate size 0) 0

/-- The function `addFrame` (lines 59-62): the frame copied into the image at
`imageIt`. -/
def addFrame (frame : Frame) (image : ImageData) (imageIt framePixelLineSize
    filePixelLineSize frameHeight : Nat) : Option ImageData :=
  copyPixelBlock frame framePixelLineSize filePixelLineSize framePixelLineSize
    frameHeight 0 image imageIt

/-! ## Composition of the output sheet (lines 64-104) -/

/-- Line 66: `min(maximumHorizontalFrames, static_cast<int>(frames.size()))`. -/
def horizontalFrames (maximumHorizontalFrames frameCount : Nat) : Nat :=
  min maximumHorizontalFrames frameCount

/-- Line 68: `ceil(frames.size() / static_cast<float>(horizontalFrames)) * frameHeight`,
a `float`; `none` when the divisor is zero. -/
def fileHeight (maximumHorizontalFrames frameHeight frameCount : Nat) : Option F32 :=
  (F32.div (F32.ofNat frameCount)
      (F32.ofNat (horizontalFrames maximumHorizontalFrames frameCount))).map
    fun q => F32.mul (F32.ceil q) (F32.ofNat frameHeight)

/-- Line 71: the argument of `image.resize`, the float product
`fileWidth * fileHeight * PixelSize` converted to `size_t`. -/
def imageSize (maximumHorizontalFrames frameWidth frameHeight frameCount : Nat) :
    Option Nat :=
  (fileHeight maximumHorizontalFrames frameHeight frameCount).map fun h =>
    F32.toNat (F32.mul
      (F32.mul (F32.ofNat (horizontalFrames maximumHorizontalFrames frameCount * frameWidth)) h)
      (F32.ofNat PixelSize))

/-- Subtraction of two `unsigned` values: modulo `2 ^ 32`. -/
def unsignedSub (a b : Nat) : Nat :=
  if b ≤ a then a - b else a + 2 ^ 32 - b

/-- The state of the loop of lines 79-94: the column counter `x`, the cursor
`imageIt` and the image. -/
structure Cursor where
  x : Nat
  imageIt : Nat
  image : ImageData
deriving DecidableEq, Repr

/-- The loop of lines 79-94 over the remaining frames: each frame is added at
the cursor, which then moves one frame to the right or, at the end of a row of
`horizontalFrames` frames, to the first column of the next row. -/
def saveFileLoop (horizontalFrames frameWidth fileWidth frameHeight : Nat) :
    List Frame → Cursor → Option Cursor
  | [], c => some c
  | frame :: rest, c =>
    (addFrame frame c.image c.imageIt (frameWidth * PixelSize) (fileWidth * PixelSize)
        frameHeight).bind fun image1 =>
      if horizontalFrames ≤ c.x + 1 then
        saveFileLoop horizontalFrames frameWidth fileWidth frameHeight rest
          { x := 0
            imageIt := c.imageIt + unsignedSub (fileWidth * frameHeight * PixelSize)
              (frameWidth * PixelSize * (horizontalFrames - 1))
            image := image1 }
      else
        saveFileLoop horizontalFrames frameWidth fileWidth frameHeight rest
          { x := c.x + 1, imageIt := c.imageIt + frameWidth * PixelSize, image := image1 }

/-- Lines 83-93: the column counter `x` and the cursor `imageIt` after one more
frame. -/
def advance (horizontalFrames frameWidth fileWidth frameHeight x imageIt : Nat) : Nat × Nat :=
  if horizontalFrames ≤ x + 1 then
    (0, imageIt + unsignedSub (fileWidth * frameHeight * PixelSize)
      (frameWidth * PixelSize * (horizontalFrames - 1)))
  else (x + 1, imageIt + frameWidth * PixelSize)

/-- The column counter and the cursor of `saveFile` after `i` frames, counted from
`x = 0` and `image.begin()` (lines 73-74). -/
def cursorAfter (maximumHorizontalFrames frameWidth frameHeight frameCount : Nat) :
    Nat → Nat × Nat
  | 0 => (0, 0)
  | i + 1 =>
    advance (horizontalFrames maximumHorizontalFrames frameCount) frameWidth
      (horizontalFrames maximumHorizontalFrames frameCount * frameWidth) frameHeight
      (cursorAfter maximumHorizontalFrames frameWidth frameHeight frameCount i).1
      (cursorAfter maximumHorizontalFrames frameWidth frameHeight frameCount i).2

/-- What `saveFile` hands to `lodepng::encode` (line 98): the pixel buffer and
the width and height, both converted to `unsigned`. -/
structure Encoded where
  image : ImageData
  width : Nat
  height : Nat
deriving DecidableEq, Repr

/-- The function `saveFile` (lines 64-104), up to the call of the encoder. -/
def saveFile (maximumHorizontalFrames frameWidth frameHeight : Nat)
    (frames : List Frame) : Option Encoded :=
  (fileHeight maximumHorizontalFrames frameHeight frames.length).bind fun h =>
  (imageSize maximumHorizontalFrames frameWidth frameHeight frames.length).bind fun size =>
  (saveFileLoop (horizontalFrames maximumHorizontalFrames frames.length) frameWidth
      (horizontalFrames maximumHorizontalFrames frames.length * frameWidth) frameHeight
      frames { x := 0, imageIt := 0, image := List.replicate size 0 }).map fun c =>
    { image := c.image
      width := horizontalFrames maximumHorizontalFrames frames.length * frameWidth
      height := F32.toNat h }

/-! ## Grid arithmetic used in the statements -/

/-- The exact ceiling of `n / h`. -/
def ceilDiv (n h : Nat) : Nat := (n + h - 1) / h

/-- The byte offset of grid cell `i` in a sheet of `columns` frames per row:
cell `(i % columns, i / columns)`. -/
def cellOffset (columns frameWidth frameHeight i : Nat) : Nat :=
  i / columns * (columns * frameWidth * frameHeight * PixelSize) +
    i % columns * (frameWidth * PixelSize)

/-- The sheet of `frameCount` frames is small enough for the float arithmetic of
`saveFile` to be exact: the frame count, the width, the height and the number of
pixels of the sheet are at most `2 ^ 24`. -/
def InRange (maximumHorizontalFrames frameWidth frameHeight frameCount : Nat) : Prop :=
  frameCount ≤ 2 ^ 24 ∧
  horizontalFrames maximumHorizontalFrames frameCount * frameWidth ≤ 2 ^ 24 ∧
  ceilDiv frameCount (horizontalFrames maximumHorizontalFrames frameCount) * frameHeight ≤ 2 ^ 24 ∧
  horizontalFrames maximumHorizontalFrames frameCount * frameWidth *
    (ceilDiv frameCount (horizontalFrames maximumHorizontalFrames frameCount) * frameHeight) ≤ 2 ^ 24

/-- The decoded image is below 2 GiB, and so is a row of it; its height is an
`int`.  The 32-bit arithmetic of lines 52 and 141-151 is then exact. -/
def SourceFits (fileWidth fileHeight : Nat) : Prop :=
  fileWidth * PixelSize < 2 ^ 31 ∧ fileHeight < 2 ^ 31 ∧
    fileWidth * fileHeight * PixelSize < 2 ^ 31

/-! ## The pipeline of `main` (lines 106-163) -/

/-- The `for` loop of lines 146-152 with its body as a parameter: the results of
the body at the visited indices, in order.  The index is an `int`, so is the
sum `frameIndex += frameCounterStep`.  One unit of fuel is spent on each test of
the loop condition. -/
def mainLoop {α : Type} (frameNumber frameCounterStep : Nat) (body : Nat → Option α) :
    Nat → Nat → List α → Option (List α)
  | 0, _, _ => none
  | fuel + 1, frameIndex, mFramesToSave =>
    if frameIndex < frameNumber then
      (body frameIndex).bind fun frame =>
        (intAdd frameIndex frameCounterStep).bind fun next =>
          mainLoop frameNumber frameCounterStep body fuel next (mFramesToSave ++ [frame])
    else some mFramesToSave

/-- Lines 141-150: the offset of frame `frameIndex` in the source image, the two
`unsigned` products `y * fileFramesLineSize` and `x * framePixelLineSize` added
one after the other to the iterator `imageData.begin()`. -/
def frameOffset (fileWidth fileHeight inputHorizontalFrames inputVerticalFrames
    frameIndex : Nat) : Nat :=
  unsignedMul (frameIndex / inputHorizontalFrames)
      (unsignedMul
        (unsignedMul (unsignedMul (fileWidth / inputHorizontalFrames) PixelSize)
          (fileHeight / inputVerticalFrames))
        inputHorizontalFrames) +
    unsignedMul (frameIndex % inputHorizontalFrames)
      (unsignedMul (fileWidth / inputHorizontalFrames) PixelSize)

/-- Lines 148-151, the body of the loop: the frame `frameIndex` cut out of the
source image.  The `unsigned` values `framePixelLineSize`, `filePixelLineSize`
and `frameHeight` are passed for the `int` parameters of `getFrame`. -/
def extractFrame (imageData : ImageData) (fileWidth fileHeight inputHorizontalFrames
    inputVerticalFrames frameIndex : Nat) : Option Frame :=
  (toInt (unsignedMul (fileWidth / inputHorizontalFrames) PixelSize)).bind
    fun framePixelLineSize =>
      (toInt (unsignedMul fileWidth PixelSize)).bind fun filePixelLineSize =>
        (toInt (fileHeight / inputVerticalFrames)).bind fun frameHeight =>
          getFrame imageData
            (frameOffset fileWidth fileHeight inputHorizontalFrames inputVerticalFrames
              frameIndex)
            framePixelLineSize filePixelLineSize frameHeight

/-- The frame indices the loop of lines 146-152 visits. -/
def selectedIndices (frameNumber frameCounterStep fuel : Nat) : Option (List Nat) :=
  mainLoop frameNumber frameCounterStep some fuel 0 []

/-- How a run of `main` with six arguments ends: it returns `0` after `saveFile`
gave the encoder a sheet, or it prints `Error: ...` and returns `-1`. -/
inductive Exit where
  | saved (sheet : Encoded)
  | error (what : String)
deriving DecidableEq, Repr

/-- The function `main` (lines 116-162) on parsed arguments.  `loaded` is what
`loadFile` returns (the decoded image, its width and its height) or the message
of the exception it throws.  The frame number of line 125 is an `int` product,
computed before the file is loaded; the `unsigned` frame width and height are
passed for `int` parameters of `saveFile` at line 154. -/
def main (loaded : Except String (ImageData × Nat × Nat))
    (inputHorizontalFrames inputVerticalFrames outputMaxHorizontalFrames
      frameCounterStep fuel : Nat) : Option Exit :=
  (intMul inputHorizontalFrames inputVerticalFrames).bind fun frameNumber =>
    match loaded with
    | .error what => some (.error what)
    | .ok (imageData, fileWidth, fileHeight) =>
      if inputHorizontalFrames = 0 ∨ inputVerticalFrames = 0 then none
      else
        (mainLoop frameNumber frameCounterStep
            (extractFrame imageData fileWidth fileHeight inputHorizontalFrames
              inputVerticalFrames) fuel 0 []).bind fun mFramesToSave =>
          (toInt (fileWidth / inputHorizontalFrames)).bind fun frameWidth =>
            (toInt (fileHeight / inputVerticalFrames)).bind fun frameHeight =>
              (saveFile outputMaxHorizontalFrames frameWidth frameHeight
                mFramesToSave).map Exit.saved

/-! ## Exactness of the float arithmetic on small integers -/

namespace F32

theorem roundNearestEven_of_dvd (a b : Nat) (hb : 0 < b) (h : b ∣ a) :
    roundNearestEven a b = a / b := by
  have : a % b = 0 := Nat.mod_eq_zero_of_dvd h
  simp [roundNearestEven, this, hb]

theorem roundNearestEven_mul (a b d : Nat) (hd : 0 < d) :
    roundNearestEven (a * d) (b * d) = roundNearestEven a b := by
  have h1 : a * d / (b * d) = a / b := Nat.mul_div_mul_right a b hd
  have h2 : a * d % (b * d) = a % b * d := by
    rw [Nat.mul_comm a d, Nat.mul_comm b d, Nat.mul_mod_mul_left, Nat.mul_comm]
  unfold roundNearestEven
  rw [h1, h2]
  have e1 : (2 * (a % b * d) < b * d) ↔ (2 * (a % b) < b) := by
    rw [← Nat.mul_assoc]; exact Nat.mul_lt_mul_right hd
  have e2 : (b * d < 2 * (a % b * d)) ↔ (b < 2 * (a % b)) := by
    rw [← Nat.mul_assoc]; exact Nat.mul_lt_mul_right hd
  simp only [e1, e2]

theorem scaleDown_spec (p q : Nat) : ∀ (fuel k : Nat),
    scaleDown p q fuel k = k ∨
      q * 2 ^ (24 + (scaleDown p q fuel k - 1)) ≤ p := by
  intro fuel
  induction fuel with
  | zero => intro k; left; rfl
  | succ n ih =>
    intro k
    rw [scaleDown]
    split
    · left; rfl
    · rename_i hlt
      right
      rcases ih (k + 1) with h | h
      · rw [h]; simpa using hlt
      · exact h

theorem scaleUp_spec (p q : Nat) : ∀ (fuel j : Nat),
    q * 2 ^ 23 ≤ p * 2 ^ (j + fuel) → q * 2 ^ 23 ≤ p * 2 ^ scaleUp p q fuel j := by
  intro fuel
  induction fuel with
  | zero => intro j h; simpa [scaleUp] using h
  | succ n ih =>
    intro j h
    rw [scaleUp]
    split
    · assumption
    · exact ih (j + 1) (by rw [show j + 1 + n = j + (n + 1) by omega]; exact h)

theorem scaleUp_round (p q : Nat) (hp : 0 < p) :
    q * 2 ^ 23 ≤ p * 2 ^ scaleUp p q (q + 23) 0 := by
  apply scaleUp_spec
  have h1 : q < 2 ^ q := Nat.lt_two_pow q
  calc q * 2 ^ 23 ≤ 2 ^ q * 2 ^ 23 := Nat.mul_le_mul_right _ h1.le
    _ = 2 ^ (0 + (q + 23)) := by rw [Nat.zero_add, Nat.pow_add]
    _ ≤ p * 2 ^ (0 + (q + 23)) := Nat.le_mul_of_pos_left _ hp

theorem dvd_of_scaleDown (n k : Nat) (hn : Representable n)
    (hk : k = 0 ∨ 2 ^ (24 + (k - 1)) ≤ n) : 2 ^ k ∣ n := by
  obtain ⟨m, t, rfl, hm⟩ := hn
  rcases hk with rfl | hk
  · simp
  · by_cases hkt : k ≤ t
    · exact Dvd.dvd.mul_left (Nat.pow_dvd_pow 2 hkt) m
    · have h1 : m * 2 ^ t ≤ 2 ^ 24 * 2 ^ t := Nat.mul_le_mul_right _ hm
      rw [← Nat.pow_add] at h1
      have h2 : 24 + (k - 1) ≤ 24 + t :=
        (Nat.pow_le_pow_iff_right (by norm_num)).mp (le_trans hk h1)
      have hk1 : k = t + 1 := by omega
      subst hk1
      have h3 : 2 ^ 24 * 2 ^ t ≤ m * 2 ^ t := by
        rw [← Nat.pow_add]; simpa using hk
      have h4 : 2 ^ 24 ≤ m := Nat.le_of_mul_le_mul_right h3 (by positivity)
      have hm' : m = 2 ^ 24 := le_antisymm hm h4
      subst hm'
      rw [← Nat.pow_add]
      exact Nat.pow_dvd_pow 2 (by omega)

/-- Rounding is exact on an integer with a 24-bit significand. -/
theorem round_isNat (n d : Nat) (hd : 0 < d) (hn : Representable n) :
    IsNat (round (n * d) d) n := by
  unfold round
  split
  · rename_i h0
    have : n = 0 := by
      rcases Nat.mul_eq_zero.mp h0 with h | h
      · exact h
      · omega
    subst this
    exact ⟨by norm_num, by simp⟩
  · split
    · rename_i h0 hbig
      have hk := scaleDown_spec (n * d) d (n * d) 0
      have hdvd : 2 ^ scaleDown (n * d) d (n * d) 0 ∣ n := by
        apply dvd_of_scaleDown n _ hn
        rcases hk with h | h
        · left; exact h
        · right
          rw [Nat.mul_comm d] at h
          exact Nat.le_of_mul_le_mul_right h hd
      generalize scaleDown (n * d) d (n * d) 0 = k at hdvd
      obtain ⟨c, rfl⟩ := hdvd
      have hpos : 0 < d * 2 ^ k := by positivity
      have : roundNearestEven (2 ^ k * c * d) (d * 2 ^ k) = c := by
        rw [roundNearestEven_of_dvd _ _ hpos ⟨c, by ring⟩]
        rw [show 2 ^ k * c * d = c * (d * 2 ^ k) by ring]
        exact Nat.mul_div_cancel _ hpos
      rw [this]
      exact ⟨by norm_num, by simp [Nat.mul_comm]⟩
    · generalize scaleUp (n * d) d (d + 23) 0 = j
      have : roundNearestEven (n * d * 2 ^ j) d = n * 2 ^ j := by
        rw [roundNearestEven_of_dvd _ _ hd ⟨n * 2 ^ j, by ring⟩]
        rw [show n * d * 2 ^ j = n * 2 ^ j * d by ring]
        exact Nat.mul_div_cancel _ hd
      rw [this]
      exact ⟨by positivity, rfl⟩

theorem representable_of_le (n : Nat) (h : n ≤ 2 ^ 24) : Representable n :=
  ⟨n, 0, by simp, h⟩

theorem representable_mul_four (n : Nat) (h : n ≤ 2 ^ 24) : Representable (n * 4) :=
  ⟨n, 2, by norm_num, h⟩

theorem ofNat_isNat (n : Nat) (hn : Representable n) : IsNat (ofNat n) n := by
  have := round_isNat n 1 (by norm_num) hn
  simpa [ofNat] using this

theorem mul_isNat (a b : F32) (x y : Nat) (ha : IsNat a x) (hb : IsNat b y)
    (hxy : Representable (x * y)) : IsNat (mul a b) (x * y) := by
  obtain ⟨ha1, ha2⟩ := ha
  obtain ⟨hb1, hb2⟩ := hb
  have := round_isNat (x * y) (a.den * b.den) (by positivity) hxy
  unfold mul
  rw [ha2, hb2, show x * a.den * (y * b.den) = x * y * (a.den * b.den) by ring]
  exact this

theorem toNat_isNat (a : F32) (n : Nat) (ha : IsNat a n) : toNat a = n := by
  obtain ⟨h1, h2⟩ := ha
  unfold toNat
  rw [h2]
  exact Nat.mul_div_cancel _ h1

theorem ceil_isNat (a : F32) (n : Nat) (ha : IsNat a n) : ceil a = ⟨n, 1⟩ := by
  obtain ⟨h1, h2⟩ := ha
  unfold ceil
  rw [h2]
  congr 1
  rw [Nat.add_sub_assoc h1, Nat.add_comm, Nat.add_mul_div_right _ _ h1]
  rw [Nat.div_eq_of_lt (by omega)]
  simp

theorem roundNearestEven_ge (a b : Nat) : a / b ≤ roundNearestEven a b := by
  unfold roundNearestEven
  split_ifs <;> omega

theorem roundNearestEven_le (a b : Nat) : roundNearestEven a b ≤ a / b + 1 := by
  unfold roundNearestEven
  split_ifs <;> omega

theorem roundNearestEven_up (a b : Nat) (h : b < 2 * (a % b)) :
    roundNearestEven a b = a / b + 1 := by
  unfold roundNearestEven
  rw [if_neg (by omega), if_pos h]

theorem odd_factor_two_pow (f x : Nat) (h : f * (2 * x + 1) = 2 ^ 24) : x = 0 := by
  have hc : Nat.Coprime (2 * x + 1) (2 ^ 24) := by
    apply Nat.Coprime.pow_right
    rw [Nat.coprime_comm, Nat.Prime.coprime_iff_not_dvd Nat.prime_two]
    omega
  have := Nat.Coprime.eq_one_of_dvd hc ⟨f, by rw [← h]; ring⟩
  omega

/-- The quotient of two integers up to `2 ^ 24`, rounded to a float and then
rounded up, is the ceiling of the exact quotient. -/
theorem ceil_roundNearestEven (n h j : Nat) (h1 : 1 ≤ h) (hle : h ≤ n) (hn : n ≤ 2 ^ 24)
    (hj : h * 2 ^ 23 ≤ n * 2 ^ j) :
    (roundNearestEven (n * 2 ^ j) h + 2 ^ j - 1) / 2 ^ j = (n + h - 1) / h := by
  have hJ : 0 < 2 ^ j := by positivity
  generalize 2 ^ j = J at hJ hj
  have hnk : h * (n / h) + n % h = n := Nat.div_add_mod n h
  have hf : n % h < h := Nat.mod_lt _ h1
  generalize n / h = k at hnk
  generalize n % h = f at hnk hf
  subst hnk
  by_cases hf0 : f = 0
  · subst hf0
    have e1 : roundNearestEven ((h * k + 0) * J) h = k * J := by
      rw [roundNearestEven_of_dvd _ _ h1 ⟨k * J, by ring⟩]
      rw [show (h * k + 0) * J = h * (k * J) by ring]
      exact Nat.mul_div_cancel_left _ h1
    rw [e1]
    have e2 : (h * k + 0 + h - 1) / h = k := by
      rw [show h * k + 0 + h - 1 = (h - 1) + k * h by
        have := Nat.mul_comm h k; omega]
      rw [Nat.add_mul_div_right _ _ h1, Nat.div_eq_of_lt (by omega)]
      simp
    rw [e2, show k * J + J - 1 = (J - 1) + k * J by omega,
      Nat.add_mul_div_right _ _ hJ, Nat.div_eq_of_lt (by omega)]
    simp
  · have e2 : (h * k + f + h - 1) / h = k + 1 := by
      rw [show h * k + f + h - 1 = (f - 1) + (k + 1) * h by
        have := Nat.mul_comm h k; rw [Nat.succ_mul]; omega]
      rw [Nat.add_mul_div_right _ _ h1, Nat.div_eq_of_lt (by omega)]
      simp
    rw [e2]
    -- the quotient and the remainder of the scaled division
    have hq : (h * k + f) * J / h = k * J + f * J / h := by
      rw [show (h * k + f) * J = f * J + h * (k * J) by ring,
        Nat.add_mul_div_left _ _ h1, Nat.add_comm]
    have hr : (h * k + f) * J % h = f * J % h := by
      rw [show (h * k + f) * J = f * J + h * (k * J) by ring, Nat.add_mul_mod_self_left]
    have hfJ : f * J / h < J := by
      rw [Nat.div_lt_iff_lt_mul h1, Nat.mul_comm J h]
      exact Nat.mul_lt_mul_of_pos_right hf hJ
    have hup : roundNearestEven ((h * k + f) * J) h ≤ k * J + J := by
      have := roundNearestEven_le ((h * k + f) * J) h
      rw [hq] at this
      omega
    have hlo : k * J < roundNearestEven ((h * k + f) * J) h := by
      by_cases hq0 : f * J / h = 0
      · -- the quotient adds nothing: the rounding goes up
        have hlt : f * J < h := by
          exact (Nat.div_eq_zero_iff h1).mp hq0
        have hmod : f * J % h = f * J := Nat.mod_eq_of_lt hlt
        have hfpos : 1 ≤ f := by omega
        have hfJ1 : J ≤ f * J := Nat.le_mul_of_pos_left _ hfpos
        have hstrict : h < 2 * (f * J) := by
          by_contra hcon
          have hh : h * 2 ^ 23 ≤ 2 ^ 24 * J := le_trans hj (Nat.mul_le_mul_right _ hn)
          have hh2 : h ≤ 2 * J := by
            have : h * 2 ^ 23 ≤ (2 * J) * 2 ^ 23 := by
              calc h * 2 ^ 23 ≤ 2 ^ 24 * J := hh
                _ = (2 * J) * 2 ^ 23 := by ring
            exact Nat.le_of_mul_le_mul_right this (by positivity)
          have hEq : h = 2 * (f * J) := by omega
          have hfJeq : f * J = J := by omega
          -- then `n` is odd times `f`, and `n = 2 ^ 24`
          have hn24 : h * k + f = 2 ^ 24 := by
            by_contra hne
            have hlt24 : h * k + f < 2 ^ 24 := lt_of_le_of_ne hn hne
            have : h * 2 ^ 23 < 2 ^ 24 * J :=
              lt_of_le_of_lt hj (Nat.mul_lt_mul_of_pos_right hlt24 hJ)
            have : h * 2 ^ 23 < (2 * J) * 2 ^ 23 := by
              calc h * 2 ^ 23 < 2 ^ 24 * J := this
                _ = (2 * J) * 2 ^ 23 := by ring
            have := Nat.lt_of_mul_lt_mul_right this
            omega
          have hx : J * k = 0 := by
            apply odd_factor_two_pow f
            rw [← hn24, hEq]
            ring
          have hk0 : k = 0 := by
            rcases Nat.mul_eq_zero.mp hx with h' | h'
            · omega
            · exact h'
          subst hk0
          omega
        rw [roundNearestEven_up _ _ (by rw [hr, hmod]; exact hstrict), hq]
        omega
      · have := roundNearestEven_ge ((h * k + f) * J) h
        rw [hq] at this
        have hq1 : 1 ≤ f * J / h := Nat.one_le_iff_ne_zero.mpr hq0
        generalize f * J / h = q at this hq1
        omega
    generalize roundNearestEven ((h * k + f) * J) h = m at hup hlo
    have : m + J - 1 = (m - k * J - 1) + (k + 1) * J := by
      rw [Nat.succ_mul]; omega
    rw [this, Nat.add_mul_div_right _ _ hJ, Nat.div_eq_of_lt (by omega)]
    simp

theorem ceil_div_isNat (a b : F32) (n h : Nat) (ha : IsNat a n) (hb : IsNat b h)
    (h1 : 1 ≤ h) (hle : h ≤ n) (hn : n ≤ 2 ^ 24) :
    ∃ c, div a b = some c ∧ ceil c = ⟨(n + h - 1) / h, 1⟩ := by
  obtain ⟨ha1, ha2⟩ := ha
  obtain ⟨hb1, hb2⟩ := hb
  have hbn : b.num ≠ 0 := by
    rw [hb2]; exact Nat.mul_ne_zero (by omega) (by omega)
  refine ⟨round (a.num * b.den) (a.den * b.num), by simp [div, hbn], ?_⟩
  have hD : 0 < a.den * b.den := by positivity
  rw [ha2, hb2, show n * a.den * b.den = n * (a.den * b.den) by ring,
    show a.den * (h * b.den) = h * (a.den * b.den) by ring]
  generalize a.den * b.den = D at hD
  by_cases hbig : h * 2 ^ 24 ≤ n
  · -- only for `n = 2 ^ 24` and `h = 1`
    have hh : h = 1 := by
      by_contra hne
      have : 2 * 2 ^ 24 ≤ h * 2 ^ 24 := Nat.mul_le_mul_right _ (by omega)
      omega
    subst hh
    have := round_isNat n D hD (representable_of_le n hn)
    rw [Nat.one_mul, ceil_isNat _ n this]
    simp
  · have hp : n * D ≠ 0 := Nat.mul_ne_zero (by omega) (by omega)
    have hnb : ¬ h * D * 2 ^ 24 ≤ n * D := by
      intro hc
      apply hbig
      rw [show h * D * 2 ^ 24 = h * 2 ^ 24 * D by ring] at hc
      exact Nat.le_of_mul_le_mul_right hc hD
    have hj := scaleUp_round (n * D) (h * D) (Nat.pos_of_ne_zero hp)
    unfold round
    rw [if_neg hp, if_neg hnb]
    generalize scaleUp (n * D) (h * D) (h * D + 23) 0 = j at hj
    have hj' : h * 2 ^ 23 ≤ n * 2 ^ j := by
      rw [show h * D * 2 ^ 23 = h * 2 ^ 23 * D by ring,
        show n * D * 2 ^ j = n * 2 ^ j * D by ring] at hj
      exact Nat.le_of_mul_le_mul_right hj hD
    rw [show n * D * 2 ^ j = n * 2 ^ j * D by ring, roundNearestEven_mul _ _ _ hD]
    unfold ceil
    simp only
    rw [ceil_roundNearestEven n h j h1 hle hn hj']

end F32

/-! ## The block copy -/

theorem copy_zero (input : ImageData) (iIt : Nat) (output : ImageData) (oIt : Nat) :
    copy input iIt 0 output oIt = some output := by
  simp [copy]

/-- A successful `copy` keeps the length of the output vector. -/
theorem copy_length (input : ImageData) :
    ∀ (sizeToCopy iIt : Nat) (output : ImageData) (oIt : Nat) (out : ImageData),
      copy input iIt sizeToCopy output oIt = some out → out.length = output.length := by
  intro sizeToCopy
  induction sizeToCopy with
  | zero =>
    intro iIt output oIt out h
    simp [copy] at h
    rw [← h]
  | succ n ih =>
    intro iIt output oIt out h
    rw [copy] at h
    cases hv : input[iIt]? with
    | none => simp [hv] at h
    | some v =>
      simp only [hv] at h
      split at h
      · rw [ih _ _ _ _ h, List.length_set]
      · exact absurd h (by simp)

/-- Within bounds `copy` succeeds and writes exactly the target range. -/
theorem copy_spec (input : ImageData) :
    ∀ (sizeToCopy iIt : Nat) (output : ImageData) (oIt : Nat),
      iIt + sizeToCopy ≤ input.length → oIt + sizeToCopy ≤ output.length →
      ∃ out, copy input iIt sizeToCopy output oIt = some out ∧
        ∀ p, out[p]? =
          if oIt ≤ p ∧ p < oIt + sizeToCopy then input[iIt + (p - oIt)]? else output[p]? := by
  intro sizeToCopy
  induction sizeToCopy with
  | zero =>
    intro iIt output oIt _ _
    refine ⟨output, copy_zero _ _ _ _, fun p => ?_⟩
    rw [if_neg (by omega)]
  | succ n ih =>
    intro iIt output oIt hi ho
    have hlt : iIt < input.length := by omega
    obtain ⟨out, hout, hget⟩ := ih (iIt + 1) (output.set oIt input[iIt]) (oIt + 1)
      (by omega) (by rw [List.length_set]; omega)
    refine ⟨out, ?_, fun p => ?_⟩
    · rw [copy, List.getElem?_eq_getElem hlt]
      simp only
      rw [if_pos (by omega)]
      exact hout
    · rw [hget p]
      by_cases hp : p = oIt
      · subst hp
        rw [if_neg (by omega), if_pos (by omega)]
        simp [List.getElem?_eq_getElem hlt, List.getElem?_set_self (show p < output.length by omega)]
      · rw [List.getElem?_set_ne (Ne.symm hp)]
        by_cases h1 : oIt + 1 ≤ p ∧ p < oIt + 1 + n
        · rw [if_pos h1, if_pos (by omega)]
          congr 1
          omega
        · rw [if_neg h1, if_neg (by omega)]

/-- A successful `copyPixelBlock` keeps the length of the output vector. -/
theorem copyPixelBlock_length (input : ImageData) (inputStep outputStep sizeToCopy : Nat) :
    ∀ (lines iIt : Nat) (output : ImageData) (oIt : Nat) (out : ImageData),
      copyPixelBlock input inputStep outputStep sizeToCopy lines iIt output oIt = some out →
      out.length = output.length := by
  intro lines
  induction lines with
  | zero =>
    intro iIt output oIt out h
    simp [copyPixelBlock] at h
    rw [← h]
  | succ n ih =>
    intro iIt output oIt out h
    rw [copyPixelBlock] at h
    obtain ⟨out1, h1, h2⟩ := Option.bind_eq_some.mp h
    rw [ih _ _ _ _ h2, copy_length _ _ _ _ _ _ h1]

/-- Within bounds, and with output rows that do not overlap, `copyPixelBlock`
succeeds; row `r` of the target block then holds row `r` of the source block and
every position outside the target rows keeps its value. -/
theorem copyPixelBlock_spec (input : ImageData) (inputStep outputStep sizeToCopy : Nat)
    (hstep : sizeToCopy ≤ outputStep) :
    ∀ (lines iIt : Nat) (output : ImageData) (oIt : Nat),
      (∀ r, r < lines → iIt + r * inputStep + sizeToCopy ≤ input.length) →
      (∀ r, r < lines → oIt + r * outputStep + sizeToCopy ≤ output.length) →
      ∃ out, copyPixelBlock input inputStep outputStep sizeToCopy lines iIt output oIt = some out ∧
        (∀ r b, r < lines → b < sizeToCopy →
          out[oIt + r * outputStep + b]? = input[iIt + r * inputStep + b]?) ∧
        (∀ p, (∀ r, r < lines → ¬ (oIt + r * outputStep ≤ p ∧ p < oIt + r * outputStep + sizeToCopy)) →
          out[p]? = output[p]?) := by
  intro lines
  induction lines with
  | zero =>
    intro iIt output oIt _ _
    exact ⟨output, by simp [copyPixelBlock], fun r b hr _ => absurd hr (by omega), fun p _ => rfl⟩
  | succ n ih =>
    intro iIt output oIt hi ho
    have hi0 := hi 0 (by omega)
    have ho0 := ho 0 (by omega)
    simp only [Nat.zero_mul, Nat.add_zero] at hi0 ho0
    obtain ⟨out1, hc1, hg1⟩ := copy_spec input sizeToCopy iIt output oIt hi0 ho0
    have hlen1 := copy_length _ _ _ _ _ _ hc1
    obtain ⟨out, hc, ha, hb⟩ := ih (iIt + inputStep) out1 (oIt + outputStep)
      (fun r hr => by have := hi (r + 1) (by omega); rw [Nat.succ_mul] at this; omega)
      (fun r hr => by have := ho (r + 1) (by omega); rw [Nat.succ_mul] at this; omega)
    refine ⟨out, ?_, ?_, ?_⟩
    · rw [copyPixelBlock, hc1]
      exact hc
    · intro r b hr hb'
      cases r with
      | zero =>
        simp only [Nat.zero_mul, Nat.add_zero]
        rw [hb (oIt + b) ?_, hg1, if_pos (by omega)]
        · congr 1
          omega
        · intro r _
          have : 0 ≤ r * outputStep := Nat.zero_le _
          omega
      | succ r =>
        have := ha r b (by omega) hb'
        rw [Nat.succ_mul, Nat.succ_mul]
        rw [show oIt + (r * outputStep + outputStep) + b = oIt + outputStep + r * outputStep + b by omega,
          show iIt + (r * inputStep + inputStep) + b = iIt + inputStep + r * inputStep + b by omega]
        exact this
    · intro p hp
      rw [hb p ?_, hg1, if_neg ?_]
      · have := hp 0 (by omega)
        simpa using this
      · intro r hr
        have := hp (r + 1) (by omega)
        rw [Nat.succ_mul] at this
        omega

/-- A `copy` that reads inside the input but would write past the end of the
output is undefined. -/
theorem copy_none (input : ImageData) :
    ∀ (sizeToCopy iIt : Nat) (output : ImageData) (oIt : Nat),
      0 < sizeToCopy → iIt + sizeToCopy ≤ input.length → output.length < oIt + sizeToCopy →
      copy input iIt sizeToCopy output oIt = none := by
  intro sizeToCopy
  induction sizeToCopy with
  | zero => intro iIt output oIt h; omega
  | succ n ih =>
    intro iIt output oIt _ hi ho
    have hlt : iIt < input.length := by omega
    rw [copy, List.getElem?_eq_getElem hlt]
    simp only
    split
    · exact ih _ _ _ (by omega) (by omega) (by rw [List.length_set]; omega)
    · rfl

/-- A `copyPixelBlock` with a row that would be written past the end of the
output, and no earlier read outside the input, is undefined. -/
theorem copyPixelBlock_none (input : ImageData) (inputStep outputStep sizeToCopy : Nat)
    (hsize : 0 < sizeToCopy) :
    ∀ (lines iIt : Nat) (output : ImageData) (oIt r0 : Nat), r0 < lines →
      (∀ r, r ≤ r0 → iIt + r * inputStep + sizeToCopy ≤ input.length) →
      output.length < oIt + r0 * outputStep + sizeToCopy →
      copyPixelBlock input inputStep outputStep sizeToCopy lines iIt output oIt = none := by
  intro lines
  induction lines with
  | zero => intro _ _ _ r0 h; omega
  | succ n ih =>
    intro iIt output oIt r0 hr0 hi ho
    rw [copyPixelBlock]
    cases r0 with
    | zero =>
      have hi0 := hi 0 (le_refl _)
      simp only [Nat.zero_mul, Nat.add_zero] at hi0 ho
      rw [copy_none input sizeToCopy iIt output oIt hsize hi0 ho]
      rfl
    | succ r0 =>
      cases hc : copy input iIt sizeToCopy output oIt with
      | none => rfl
      | some out1 =>
        simp only [Option.some_bind]
        apply ih (iIt + inputStep) out1 (oIt + outputStep) r0 (by omega)
        · intro r hr
          have := hi (r + 1) (by omega)
          rw [Nat.succ_mul] at this
          omega
        · rw [copy_length _ _ _ _ _ _ hc]
          rw [Nat.succ_mul] at ho
          omega

/-- A `copy` that returns has touched positions inside both vectors only. -/
theorem copy_bounds_of_some (input : ImageData) :
    ∀ (sizeToCopy iIt : Nat) (output : ImageData) (oIt : Nat) (out : ImageData),
      copy input iIt sizeToCopy output oIt = some out →
      ∀ b, b < sizeToCopy → iIt + b < input.length ∧ oIt + b < output.length := by
  intro sizeToCopy
  induction sizeToCopy with
  | zero => intro _ _ _ _ _ b hb; omega
  | succ n ih =>
    intro iIt output oIt out h b hb
    rw [copy] at h
    cases hv : input[iIt]? with
    | none => simp [hv] at h
    | some v =>
      simp only [hv] at h
      have hi : iIt < input.length := by
        by_contra hcon
        rw [List.getElem?_eq_none (by omega)] at hv
        exact absurd hv (by simp)
      split at h
      · rename_i ho
        cases b with
        | zero => exact ⟨by omega, by omega⟩
        | succ b =>
          have := ih _ _ _ _ h b (by omega)
          rw [List.length_set] at this
          omega
      · exact absurd h (by simp)

/-- A `copyPixelBlock` that returns has read positions inside the input and written
positions inside the output only. -/
theorem copyPixelBlock_bounds_of_some (input : ImageData) (inputStep outputStep sizeToCopy : Nat) :
    ∀ (lines iIt : Nat) (output : ImageData) (oIt : Nat) (out : ImageData),
      copyPixelBlock input inputStep outputStep sizeToCopy lines iIt output oIt = some out →
      ∀ r b, r < lines → b < sizeToCopy →
        iIt + r * inputStep + b < input.length ∧ oIt + r * outputStep + b < output.length := by
  intro lines
  induction lines with
  | zero => intro _ _ _ _ _ r b hr; omega
  | succ n ih =>
    intro iIt output oIt out h r b hr hb
    rw [copyPixelBlock] at h
    obtain ⟨out1, h1, h2⟩ := Option.bind_eq_some.mp h
    cases r with
    | zero =>
      have := copy_bounds_of_some input _ _ _ _ _ h1 b hb
      simpa using this
    | succ r =>
      have := ih _ _ _ _ h2 r b (by omega) hb
      rw [copy_length _ _ _ _ _ _ h1] at this
      rw [Nat.succ_mul, Nat.succ_mul]
      omega

/-- A `copy` whose positions are all inside the two vectors returns. -/
theorem copy_some_of_bounds (input : ImageData) (sizeToCopy iIt : Nat) (output : ImageData)
    (oIt : Nat)
    (h : ∀ b, b < sizeToCopy → iIt + b < input.length ∧ oIt + b < output.length) :
    ∃ out, copy input iIt sizeToCopy output oIt = some out := by
  rcases Nat.eq_zero_or_pos sizeToCopy with h0 | hpos
  · subst h0; exact ⟨output, copy_zero _ _ _ _⟩
  · have := h (sizeToCopy - 1) (by omega)
    obtain ⟨out, ho, _⟩ := copy_spec input sizeToCopy iIt output oIt (by omega) (by omega)
    exact ⟨out, ho⟩

/-- A `copyPixelBlock` returns exactly when every position it reads is inside the
input and every position it writes is inside the output. -/
theorem copyPixelBlock_isSome_iff (input : ImageData) (inputStep outputStep sizeToCopy : Nat) :
    ∀ (lines iIt : Nat) (output : ImageData) (oIt : Nat),
      (∃ out, copyPixelBlock input inputStep outputStep sizeToCopy lines iIt output oIt =
        some out) ↔
      ∀ r b, r < lines → b < sizeToCopy →
        iIt + r * inputStep + b < input.length ∧ oIt + r * outputStep + b < output.length := by
  intro lines iIt output oIt
  constructor
  · rintro ⟨out, h⟩
    exact copyPixelBlock_bounds_of_some _ _ _ _ _ _ _ _ _ h
  · revert iIt output oIt
    induction lines with
    | zero => intro iIt output oIt _; exact ⟨output, by simp [copyPixelBlock]⟩
    | succ n ih =>
      intro iIt output oIt h
      obtain ⟨out1, h1⟩ := copy_some_of_bounds input sizeToCopy iIt output oIt
        (fun b hb => by simpa using h 0 b (by omega) hb)
      obtain ⟨out, h2⟩ := ih (iIt + inputStep) out1 (oIt + outputStep)
        (fun r b hr hb => by
          have := h (r + 1) b (by omega) hb
          rw [copy_length _ _ _ _ _ _ h1]
          rw [Nat.succ_mul, Nat.succ_mul] at this
          omega)
      exact ⟨out, by rw [copyPixelBlock, h1]; exact h2⟩

/-! ## Grid addressing -/

theorem mixed_radix_unique (c a b a1 b1 : Nat) (hb : b < c) (hb1 : b1 < c)
    (e : a * c + b = a1 * c + b1) : a = a1 ∧ b = b1 := by
  have hc : 0 < c := by omega
  have h1 : (a * c + b) / c = a := by
    rw [Nat.add_comm, Nat.add_mul_div_right _ _ hc, Nat.div_eq_of_lt hb]; simp
  have h2 : (a1 * c + b1) / c = a1 := by
    rw [Nat.add_comm, Nat.add_mul_div_right _ _ hc, Nat.div_eq_of_lt hb1]; simp
  have ha : a = a1 := by rw [← h1, ← h2, e]
  subst ha
  exact ⟨rfl, by omega⟩

/-- The position of byte `b` of row `r` of cell `i`, in mixed-radix form. -/
theorem cell_position (columns frameWidth frameHeight i r b : Nat) :
    cellOffset columns frameWidth frameHeight i + r * (columns * frameWidth * PixelSize) + b =
      ((i / columns * frameHeight + r) * columns + i % columns) * (frameWidth * PixelSize) + b := by
  unfold cellOffset
  ring

/-- A byte position of the sheet lies in one cell only, at one row and column. -/
theorem cell_position_unique (columns frameWidth frameHeight i j r s b c : Nat)
    (hcol : 1 ≤ columns) (hr : r < frameHeight) (hs : s < frameHeight)
    (hb : b < frameWidth * PixelSize) (hc : c < frameWidth * PixelSize)
    (e : cellOffset columns frameWidth frameHeight i + r * (columns * frameWidth * PixelSize) + b =
      cellOffset columns frameWidth frameHeight j + s * (columns * frameWidth * PixelSize) + c) :
    i = j ∧ r = s ∧ b = c := by
  rw [cell_position, cell_position] at e
  obtain ⟨e1, e2⟩ := mixed_radix_unique _ _ _ _ _ hb hc e
  obtain ⟨e3, e4⟩ := mixed_radix_unique _ _ _ _ _
    (Nat.mod_lt i (by omega)) (Nat.mod_lt j (by omega)) e1
  obtain ⟨e5, e6⟩ := mixed_radix_unique _ _ _ _ _ hr hs e3
  refine ⟨?_, e6, e2⟩
  rw [← Nat.div_add_mod i columns, ← Nat.div_add_mod j columns, e5, e4]

/-- Every row of every cell below `rows * columns` ends inside the sheet. -/
theorem cell_position_le (columns frameWidth frameHeight rows i r : Nat)
    (hi : i < rows * columns) (hr : r < frameHeight) :
    cellOffset columns frameWidth frameHeight i + r * (columns * frameWidth * PixelSize) +
        frameWidth * PixelSize ≤
      columns * frameWidth * (rows * frameHeight) * PixelSize := by
  have hcol : 0 < columns := by
    rcases Nat.eq_zero_or_pos columns with h | h
    · subst h; simp at hi
    · exact h
  have h1 : i / columns < rows := Nat.div_lt_of_lt_mul (by rw [Nat.mul_comm]; exact hi)
  have h2 : i % columns < columns := Nat.mod_lt _ hcol
  have h3 : i / columns * frameHeight + r + 1 ≤ rows * frameHeight := by
    calc i / columns * frameHeight + r + 1 ≤ i / columns * frameHeight + frameHeight := by omega
      _ = (i / columns + 1) * frameHeight := by ring
      _ ≤ rows * frameHeight := Nat.mul_le_mul_right _ h1
  have h4 : (i / columns * frameHeight + r) * columns + i % columns + 1 ≤
      rows * frameHeight * columns := by
    calc (i / columns * frameHeight + r) * columns + i % columns + 1
        ≤ (i / columns * frameHeight + r) * columns + columns := by omega
      _ = (i / columns * frameHeight + r + 1) * columns := by ring
      _ ≤ rows * frameHeight * columns := Nat.mul_le_mul_right _ h3
  calc cellOffset columns frameWidth frameHeight i + r * (columns * frameWidth * PixelSize) +
        frameWidth * PixelSize
      = ((i / columns * frameHeight + r) * columns + i % columns + 1) *
          (frameWidth * PixelSize) := by
        rw [cell_position]; ring
    _ ≤ rows * frameHeight * columns * (frameWidth * PixelSize) := Nat.mul_le_mul_right _ h4
    _ = columns * frameWidth * (rows * frameHeight) * PixelSize := by ring

theorem cellOffset_succ_wrap (columns frameWidth frameHeight i : Nat) (hcol : 1 ≤ columns)
    (hfh : 1 ≤ frameHeight) (hx : columns ≤ i % columns + 1) :
    cellOffset columns frameWidth frameHeight (i + 1) =
      cellOffset columns frameWidth frameHeight i +
        (columns * frameWidth * frameHeight * PixelSize -
          frameWidth * PixelSize * (columns - 1)) ∧ (i + 1) % columns = 0 := by
  have hm : i % columns < columns := Nat.mod_lt _ (by omega)
  have hx' : i % columns = columns - 1 := by omega
  have hi : i = columns * (i / columns) + (columns - 1) := by
    conv_lhs => rw [← Nat.div_add_mod i columns, hx']
  have hi1 : i + 1 = (i / columns + 1) * columns := by
    rw [Nat.succ_mul, Nat.mul_comm (i / columns)]; omega
  have hd : (i + 1) / columns = i / columns + 1 := by
    rw [hi1]; exact Nat.mul_div_cancel _ (by omega)
  have hmod : (i + 1) % columns = 0 := by
    rw [hi1]; exact Nat.mul_mod_left _ _
  refine ⟨?_, hmod⟩
  unfold cellOffset
  rw [hd, hmod, hx']
  have hle : frameWidth * PixelSize * (columns - 1) ≤
      columns * frameWidth * frameHeight * PixelSize := by
    calc frameWidth * PixelSize * (columns - 1) ≤ frameWidth * PixelSize * columns :=
          Nat.mul_le_mul_left _ (by omega)
      _ = columns * frameWidth * 1 * PixelSize := by ring
      _ ≤ columns * frameWidth * frameHeight * PixelSize :=
          Nat.mul_le_mul_right _ (Nat.mul_le_mul_left _ hfh)
  rw [Nat.succ_mul, Nat.mul_comm (columns - 1)]
  omega

theorem cellOffset_succ_next (columns frameWidth frameHeight i : Nat)
    (hx : ¬ columns ≤ i % columns + 1) :
    cellOffset columns frameWidth frameHeight (i + 1) =
      cellOffset columns frameWidth frameHeight i + frameWidth * PixelSize ∧
      (i + 1) % columns = i % columns + 1 := by
  have hcol : 0 < columns := by omega
  have hi1 : i + 1 = (i % columns + 1) + columns * (i / columns) := by
    have := Nat.div_add_mod i columns; omega
  have hd : (i + 1) / columns = i / columns := by
    rw [hi1, Nat.add_mul_div_left _ _ hcol, Nat.div_eq_of_lt (by omega)]
    simp
  have hmod : (i + 1) % columns = i % columns + 1 := by
    conv_lhs => rw [hi1]
    rw [Nat.add_mul_mod_self_left, Nat.mod_eq_of_lt (by omega)]
  refine ⟨?_, hmod⟩
  unfold cellOffset
  rw [hd, hmod]
  ring

theorem unsignedSub_of_le (a b : Nat) (h : b ≤ a) : unsignedSub a b = a - b := by
  simp [unsignedSub, h]

/-! ## The composition loop -/

/-- The loop of `saveFile` over frames of one size, started at cell `i` of an
image that has room for the cells `i`, `i + 1`, ... of all of them: it succeeds,
ends with the cursor at cell `i + rest.length`, has placed frame `k` in cell
`i + k`, and has left every other byte as it was. -/
theorem saveFileLoop_spec (columns frameWidth frameHeight : Nat) (hcol : 1 ≤ columns)
    (hfh : 1 ≤ frameHeight) :
    ∀ (rest : List Frame) (i : Nat) (c : Cursor),
      (∀ f ∈ rest, f.length = frameWidth * PixelSize * frameHeight) →
      (∀ k r, k < rest.length → r < frameHeight →
        cellOffset columns frameWidth frameHeight (i + k) +
          r * (columns * frameWidth * PixelSize) + frameWidth * PixelSize ≤ c.image.length) →
      c.x = i % columns → c.imageIt = cellOffset columns frameWidth frameHeight i →
      ∃ c1, saveFileLoop columns frameWidth (columns * frameWidth) frameHeight rest c = some c1 ∧
        c1.image.length = c.image.length ∧
        c1.x = (i + rest.length) % columns ∧
        c1.imageIt = cellOffset columns frameWidth frameHeight (i + rest.length) ∧
        (∀ k r b f, rest[k]? = some f → r < frameHeight → b < frameWidth * PixelSize →
          c1.image[cellOffset columns frameWidth frameHeight (i + k) +
            r * (columns * frameWidth * PixelSize) + b]? = f[r * (frameWidth * PixelSize) + b]?) ∧
        (∀ p, (∀ k r b, k < rest.length → r < frameHeight → b < frameWidth * PixelSize →
            p ≠ cellOffset columns frameWidth frameHeight (i + k) +
              r * (columns * frameWidth * PixelSize) + b) →
          c1.image[p]? = c.image[p]?) := by
  intro rest
  induction rest with
  | nil =>
    intro i c _ _ hx hit
    exact ⟨c, rfl, rfl, by simpa using hx, by simpa using hit,
      fun k r b f hk => by simp at hk, fun p _ => rfl⟩
  | cons frame rest ih =>
    intro i c hlen hroom hx hit
    have hframe : frame.length = frameWidth * PixelSize * frameHeight :=
      hlen frame (List.mem_cons_self _ _)
    -- the frame is added at cell `i`
    obtain ⟨image1, hadd, hrows, hout⟩ := copyPixelBlock_spec frame (frameWidth * PixelSize)
      (columns * frameWidth * PixelSize) (frameWidth * PixelSize)
      (by
        calc frameWidth * PixelSize = 1 * (frameWidth * PixelSize) := by ring
          _ ≤ columns * (frameWidth * PixelSize) := Nat.mul_le_mul_right _ hcol
          _ = columns * frameWidth * PixelSize := by ring)
      frameHeight 0 c.image c.imageIt
      (fun r hr => by
        rw [hframe]
        calc 0 + r * (frameWidth * PixelSize) + frameWidth * PixelSize
            = (r + 1) * (frameWidth * PixelSize) := by ring
          _ ≤ frameHeight * (frameWidth * PixelSize) := Nat.mul_le_mul_right _ hr
          _ = frameWidth * PixelSize * frameHeight := by ring)
      (fun r hr => by
        rw [hit]
        exact hroom 0 r (by simp) hr)
    have hlen1 : image1.length = c.image.length := copyPixelBlock_length _ _ _ _ _ _ _ _ _ hadd
    -- the cursor moves to cell `i + 1`
    have hnext : ∃ c2 : Cursor, saveFileLoop columns frameWidth (columns * frameWidth) frameHeight
          (frame :: rest) c =
        saveFileLoop columns frameWidth (columns * frameWidth) frameHeight rest c2 ∧
        c2.image = image1 ∧ c2.x = (i + 1) % columns ∧
        c2.imageIt = cellOffset columns frameWidth frameHeight (i + 1) := by
      by_cases hw : columns ≤ c.x + 1
      · refine ⟨{ x := 0
                  imageIt := c.imageIt + unsignedSub (columns * frameWidth * frameHeight * PixelSize)
                    (frameWidth * PixelSize * (columns - 1))
                  image := image1 }, ?_, rfl, ?_, ?_⟩
        · rw [saveFileLoop]
          unfold addFrame
          rw [hadd]
          simp only [Option.some_bind, if_pos hw]
        · rw [hx] at hw
          exact (cellOffset_succ_wrap columns frameWidth frameHeight i hcol hfh hw).2.symm
        · rw [hx] at hw
          have hle : frameWidth * PixelSize * (columns - 1) ≤
              columns * frameWidth * frameHeight * PixelSize := by
            calc frameWidth * PixelSize * (columns - 1) ≤ frameWidth * PixelSize * columns :=
                  Nat.mul_le_mul_left _ (by omega)
              _ = columns * frameWidth * 1 * PixelSize := by ring
              _ ≤ columns * frameWidth * frameHeight * PixelSize :=
                  Nat.mul_le_mul_right _ (Nat.mul_le_mul_left _ hfh)
          simp only
          rw [unsignedSub_of_le _ _ hle, hit,
            (cellOffset_succ_wrap columns frameWidth frameHeight i hcol hfh hw).1]
      · refine ⟨{ x := c.x + 1, imageIt := c.imageIt + frameWidth * PixelSize, image := image1 },
          ?_, rfl, ?_, ?_⟩
        · rw [saveFileLoop]
          unfold addFrame
          rw [hadd]
          simp only [Option.some_bind, if_neg hw]
        · rw [hx] at hw
          simp only
          rw [hx, (cellOffset_succ_next columns frameWidth frameHeight i hw).2]
        · rw [hx] at hw
          simp only
          rw [hit, (cellOffset_succ_next columns frameWidth frameHeight i hw).1]
    obtain ⟨c2, hloop, himg2, hx2, hit2⟩ := hnext
    obtain ⟨c1, hc1, hl1, hx1, hit1, hplace, hkeep⟩ := ih (i + 1) c2
      (fun f hf => hlen f (List.mem_cons_of_mem _ hf))
      (fun k r hk hr => by
        rw [himg2, hlen1, show i + 1 + k = i + (k + 1) by omega]
        exact hroom (k + 1) r (by simp only [List.length_cons]; omega) hr)
      hx2 hit2
    have hidx : ∀ k, i + 1 + k = i + (k + 1) := fun k => by omega
    refine ⟨c1, by rw [hloop, hc1], by rw [hl1, himg2, hlen1], ?_, ?_, ?_, ?_⟩
    · rw [hx1, List.length_cons, hidx]
    · rw [hit1, List.length_cons, hidx]
    · intro k r b f hk hr hb
      cases k with
      | zero =>
        simp only [List.getElem?_cons_zero, Option.some.injEq] at hk
        subst hk
        rw [Nat.add_zero, hkeep, himg2]
        · have := hrows r b hr hb
          rw [hit] at this
          rw [this, Nat.zero_add]
        · intro k r1 b1 _ hr1 hb1 e
          have := (cell_position_unique columns frameWidth frameHeight i (i + 1 + k) r r1 b b1
            hcol hr hr1 hb hb1 e).1
          omega
      | succ k =>
        simp only [List.getElem?_cons_succ] at hk
        rw [← hidx]
        exact hplace k r b f hk hr hb
    · intro p hp
      rw [hkeep, himg2, hout]
      · intro r hr hin
        rw [hit] at hin
        apply hp 0 r (p - (cellOffset columns frameWidth frameHeight i +
          r * (columns * frameWidth * PixelSize))) (by simp) hr (by omega)
        rw [Nat.add_zero]
        omega
      · intro k r b hk hr hb
        rw [hidx]
        exact hp (k + 1) r b (by simp only [List.length_cons]; omega) hr hb

theorem le_ceilDiv_mul (n h : Nat) (h1 : 1 ≤ h) : n ≤ ceilDiv n h * h := by
  unfold ceilDiv
  have := Nat.div_add_mod (n + h - 1) h
  have hm : (n + h - 1) % h < h := Nat.mod_lt _ h1
  rw [Nat.mul_comm]
  omega

theorem ceilDiv_pos (n h : Nat) (h1 : 1 ≤ h) (hn : 1 ≤ n) : 1 ≤ ceilDiv n h := by
  unfold ceilDiv
  exact (Nat.one_le_div_iff h1).mpr (by omega)

/-- In range, the float computations of lines 68 and 71 are exact. -/
theorem sheet_size_exact (maximumHorizontalFrames frameWidth frameHeight n : Nat)
    (hmax : 1 ≤ maximumHorizontalFrames) (hn1 : 1 ≤ n)
    (hr : InRange maximumHorizontalFrames frameWidth frameHeight n) :
    ∃ hf, fileHeight maximumHorizontalFrames frameHeight n = some hf ∧
      F32.toNat hf = ceilDiv n (horizontalFrames maximumHorizontalFrames n) * frameHeight ∧
      imageSize maximumHorizontalFrames frameWidth frameHeight n =
        some (horizontalFrames maximumHorizontalFrames n * frameWidth *
          (ceilDiv n (horizontalFrames maximumHorizontalFrames n) * frameHeight) * PixelSize) := by
  obtain ⟨hn, hW, hH, hWH⟩ := hr
  have hc1 : 1 ≤ horizontalFrames maximumHorizontalFrames n := by
    unfold horizontalFrames; omega
  have hcn : horizontalFrames maximumHorizontalFrames n ≤ n := by
    unfold horizontalFrames; omega
  obtain ⟨cols, hcols⟩ : ∃ cols, horizontalFrames maximumHorizontalFrames n = cols := ⟨_, rfl⟩
  rw [hcols] at hW hH hWH hc1 hcn ⊢
  have hrows := ceilDiv_pos n cols hc1 hn1
  have hfh : frameHeight ≤ 2 ^ 24 :=
    le_trans (Nat.le_mul_of_pos_left _ hrows) hH
  obtain ⟨q, hq, hceil⟩ := F32.ceil_div_isNat (F32.ofNat n) (F32.ofNat cols) n cols
    (F32.ofNat_isNat n (F32.representable_of_le n hn))
    (F32.ofNat_isNat cols (F32.representable_of_le cols (le_trans hcn hn))) hc1 hcn hn
  have hheight : F32.IsNat (F32.mul (F32.ceil q) (F32.ofNat frameHeight))
      (ceilDiv n cols * frameHeight) := by
    apply F32.mul_isNat
    · rw [hceil]; exact ⟨by norm_num, by simp [ceilDiv]⟩
    · exact F32.ofNat_isNat _ (F32.representable_of_le _ hfh)
    · exact F32.representable_of_le _ hH
  have hfile : fileHeight maximumHorizontalFrames frameHeight n =
      some (F32.mul (F32.ceil q) (F32.ofNat frameHeight)) := by
    unfold fileHeight
    rw [hcols, hq]
    rfl
  refine ⟨_, hfile, F32.toNat_isNat _ _ hheight, ?_⟩
  unfold imageSize
  rw [hfile, hcols]
  simp only [Option.map_some', Option.some.injEq]
  apply F32.toNat_isNat
  apply F32.mul_isNat
  · apply F32.mul_isNat
    · exact F32.ofNat_isNat _ (F32.representable_of_le _ hW)
    · exact hheight
    · exact F32.representable_of_le _ hWH
  · exact F32.ofNat_isNat _ (F32.representable_of_le _ (by norm_num [PixelSize]))
  · exact F32.representable_mul_four _ hWH

theorem saveFileLoop_flat (columns frameWidth fileWidth : Nat) :
    ∀ (rest : List Frame) (c : Cursor),
      ∃ c1, saveFileLoop columns frameWidth fileWidth 0 rest c = some c1 ∧ c1.image = c.image := by
  intro rest
  induction rest with
  | nil => intro c; exact ⟨c, rfl, rfl⟩
  | cons frame rest ih =>
    intro c
    rw [saveFileLoop]
    simp only [addFrame, copyPixelBlock, Option.some_bind]
    split
    · obtain ⟨c1, h1, h2⟩ := ih { x := 0
                                  imageIt := c.imageIt + unsignedSub (fileWidth * 0 * PixelSize)
                                    (frameWidth * PixelSize * (columns - 1))
                                  image := c.image }
      exact ⟨c1, h1, h2⟩
    · obtain ⟨c1, h1, h2⟩ := ih { x := c.x + 1, imageIt := c.imageIt + frameWidth * PixelSize,
                                  image := c.image }
      exact ⟨c1, h1, h2⟩

/-- The sheet `saveFile` builds from `n ≥ 1` frames of one size, in range: its
dimensions, the placement of every frame and the zero bytes elsewhere. -/
theorem saveFile_spec (maximumHorizontalFrames frameWidth frameHeight : Nat)
    (frames : List Frame) (hmax : 1 ≤ maximumHorizontalFrames) (hn1 : 1 ≤ frames.length)
    (hlen : ∀ f ∈ frames, f.length = frameWidth * PixelSize * frameHeight)
    (hr : InRange maximumHorizontalFrames frameWidth frameHeight frames.length) :
    ∃ sheet, saveFile maximumHorizontalFrames frameWidth frameHeight frames = some sheet ∧
      sheet.width = horizontalFrames maximumHorizontalFrames frames.length * frameWidth ∧
      sheet.height =
        ceilDiv frames.length (horizontalFrames maximumHorizontalFrames frames.length) *
          frameHeight ∧
      sheet.image.length = sheet.width * sheet.height * PixelSize ∧
      (∀ i r b f, frames[i]? = some f → r < frameHeight → b < frameWidth * PixelSize →
        sheet.image[cellOffset (horizontalFrames maximumHorizontalFrames frames.length)
            frameWidth frameHeight i +
          r * (horizontalFrames maximumHorizontalFrames frames.length * frameWidth * PixelSize) +
          b]? = f[r * (frameWidth * PixelSize) + b]?) ∧
      (∀ p, p < sheet.image.length →
        (∀ i r b, i < frames.length → r < frameHeight → b < frameWidth * PixelSize →
          p ≠ cellOffset (horizontalFrames maximumHorizontalFrames frames.length)
              frameWidth frameHeight i +
            r * (horizontalFrames maximumHorizontalFrames frames.length * frameWidth *
              PixelSize) + b) →
        sheet.image[p]? = some 0) := by
  obtain ⟨hf, hfile, hheight, hsize⟩ :=
    sheet_size_exact maximumHorizontalFrames frameWidth frameHeight frames.length hmax hn1 hr
  have hc1 : 1 ≤ horizontalFrames maximumHorizontalFrames frames.length := by
    unfold horizontalFrames; omega
  obtain ⟨cols, hcols⟩ :
    ∃ cols, horizontalFrames maximumHorizontalFrames frames.length = cols := ⟨_, rfl⟩
  rw [hcols] at hheight hsize hc1 ⊢
  have hunfold : saveFile maximumHorizontalFrames frameWidth frameHeight frames =
      (saveFileLoop cols frameWidth (cols * frameWidth) frameHeight frames
        { x := 0, imageIt := 0
          image := List.replicate (cols * frameWidth *
            (ceilDiv frames.length cols * frameHeight) * PixelSize) 0 }).map fun c =>
        { image := c.image, width := cols * frameWidth, height := F32.toNat hf } := by
    unfold saveFile
    rw [hfile, hsize, hcols]
    rfl
  rcases Nat.eq_zero_or_pos frameHeight with h0 | hpos
  · subst h0
    obtain ⟨c1, hc, himg⟩ := saveFileLoop_flat cols frameWidth (cols * frameWidth) frames
      { x := 0, imageIt := 0
        image := List.replicate (cols * frameWidth *
          (ceilDiv frames.length cols * 0) * PixelSize) 0 }
    refine ⟨_, by rw [hunfold, hc]; rfl, rfl, hheight, ?_, ?_, ?_⟩
    · simp [himg, hheight]
    · intro i r b f _ hr0; omega
    · intro p hp; simp [himg] at hp
  · obtain ⟨c1, hc, hl, _, _, hplace, hkeep⟩ := saveFileLoop_spec cols frameWidth frameHeight
      hc1 hpos frames 0
      { x := 0, imageIt := 0
        image := List.replicate (cols * frameWidth *
          (ceilDiv frames.length cols * frameHeight) * PixelSize) 0 }
      hlen
      (fun k r hk hr => by
        rw [List.length_replicate]
        exact cell_position_le cols frameWidth frameHeight (ceilDiv frames.length cols)
          (0 + k) r (by have := le_ceilDiv_mul frames.length cols hc1; omega) hr)
      (by simp) (by simp [cellOffset])
    simp only [Nat.zero_add] at hplace hkeep
    refine ⟨_, by rw [hunfold, hc]; rfl, rfl, hheight, ?_, hplace, ?_⟩
    · simp only [hl, hheight, List.length_replicate]
    · intro p hp hout
      simp only [hl, List.length_replicate] at hp
      rw [hkeep p hout, List.getElem?_replicate_of_lt hp]

/-! ## The selection loop and the pipeline -/

theorem intMul_of_lt (a b : Nat) (h : a * b < 2 ^ 31) : intMul a b = some (a * b) := by
  unfold intMul
  rw [if_pos h]

theorem intMul_of_le (a b : Nat) (h : 2 ^ 31 ≤ a * b) : intMul a b = none := by
  unfold intMul
  rw [if_neg (by omega)]

theorem intAdd_of_lt (a b : Nat) (h : a + b < 2 ^ 31) : intAdd a b = some (a + b) := by
  unfold intAdd
  rw [if_pos h]

theorem intAdd_of_le (a b : Nat) (h : 2 ^ 31 ≤ a + b) : intAdd a b = none := by
  unfold intAdd
  rw [if_neg (by omega)]

theorem toInt_of_lt (u : Nat) (h : u < 2 ^ 31) : toInt u = some u := by
  unfold toInt
  rw [if_pos h]

theorem unsignedMul_of_lt (a b : Nat) (h : a * b < 2 ^ 32) : unsignedMul a b = a * b :=
  Nat.mod_eq_of_lt h

theorem ceilDiv_eq_zero (x s : Nat) (hs : 1 ≤ s) (h : ceilDiv x s = 0) : x = 0 := by
  unfold ceilDiv at h
  have := (Nat.div_eq_zero_iff hs).mp h
  omega

theorem ceilDiv_sub (x s : Nat) (hs : 1 ≤ s) (hx : 1 ≤ x) :
    ceilDiv (x - s) s + 1 = ceilDiv x s := by
  unfold ceilDiv
  by_cases h : s ≤ x
  · rw [show x + s - 1 = (x - s + s - 1) + s by omega, Nat.add_div_right _ hs]
  · rw [show x - s = 0 by omega, Nat.zero_add, Nat.div_eq_of_lt (by omega)]
    rw [show x + s - 1 = (x - 1) + s by omega, Nat.add_div_right _ hs,
      Nat.div_eq_of_lt (by omega)]

/-- With a positive step, and while the index stays an `int`, the loop of `main`
runs its body at `frameIndex`, `frameIndex + step`, ... below `frameNumber`, in
this order, and needs one unit of fuel more than the number of these indices. -/
theorem mainLoop_run {α : Type} (frameNumber step : Nat) (body : Nat → Option α)
    (hstep : 1 ≤ step) :
    ∀ (cnt frameIndex : Nat) (acc : List α) (fuel : Nat),
      ceilDiv (frameNumber - frameIndex) step = cnt → cnt < fuel →
      frameIndex + cnt * step < 2 ^ 31 →
      mainLoop frameNumber step body fuel frameIndex acc =
        (((List.range cnt).map fun k => frameIndex + k * step).mapM body).map (acc ++ ·) := by
  intro cnt
  induction cnt with
  | zero =>
    intro frameIndex acc fuel hc hf _
    have hx := ceilDiv_eq_zero _ _ hstep hc
    obtain ⟨fuel, rfl⟩ : ∃ g, fuel = g + 1 := ⟨fuel - 1, by omega⟩
    rw [mainLoop, if_neg (by omega), List.range_zero, List.map_nil, List.mapM_nil]
    simp
  | succ cnt ih =>
    intro frameIndex acc fuel hc hf hint
    have hint1 : frameIndex + step + cnt * step < 2 ^ 31 := by
      rw [Nat.succ_mul] at hint
      omega
    have hlt : frameIndex < frameNumber := by
      by_contra hcon
      rw [show frameNumber - frameIndex = 0 by omega] at hc
      unfold ceilDiv at hc
      rw [Nat.zero_add, Nat.div_eq_of_lt (by omega)] at hc
      omega
    obtain ⟨fuel, rfl⟩ : ∃ g, fuel = g + 1 := ⟨fuel - 1, by omega⟩
    have hc' : ceilDiv (frameNumber - (frameIndex + step)) step = cnt := by
      have := ceilDiv_sub (frameNumber - frameIndex) step hstep (by omega)
      rw [show frameNumber - (frameIndex + step) = frameNumber - frameIndex - step by omega]
      omega
    rw [mainLoop, if_pos hlt, List.range_succ_eq_map]
    simp only [List.map_cons, List.map_map, Nat.zero_mul, Nat.add_zero, List.mapM_cons]
    cases hb : body frameIndex with
    | none => simp
    | some f =>
      simp only [Option.some_bind, Option.bind_eq_bind]
      rw [intAdd_of_lt _ _ (by omega)]
      simp only [Option.some_bind]
      rw [ih (frameIndex + step) (acc ++ [f]) fuel hc' (by omega) hint1]
      have hfun : (fun k => frameIndex + step + k * step) =
          ((fun k => frameIndex + k * step) ∘ Nat.succ) := by
        funext k
        simp only [Function.comp, Nat.succ_mul]
        omega
      rw [hfun]
      cases List.mapM body (List.map ((fun k => frameIndex + k * step) ∘ Nat.succ)
        (List.range cnt)) with
      | none => simp
      | some l => simp

/-- With a frame below 2 GiB and every source row of the frame inside the image,
`getFrame` returns a frame of `framePixelLineSize * frameHeight` bytes whose row `r` is the source row
`r` of the frame. -/
theorem getFrame_spec (imageData : ImageData) (frameIt framePixelLineSize filePixelLineSize
    frameHeight : Nat) (hsize : framePixelLineSize * frameHeight < 2 ^ 31)
    (hb : ∀ r, r < frameHeight →
      frameIt + r * filePixelLineSize + framePixelLineSize ≤ imageData.length) :
    ∃ frame, getFrame imageData frameIt framePixelLineSize filePixelLineSize frameHeight =
        some frame ∧
      frame.length = framePixelLineSize * frameHeight ∧
      ∀ r b, r < frameHeight → b < framePixelLineSize →
        frame[r * framePixelLineSize + b]? = imageData[frameIt + r * filePixelLineSize + b]? := by
  obtain ⟨frame, hf, hrows, _⟩ := copyPixelBlock_spec imageData filePixelLineSize
    framePixelLineSize framePixelLineSize (le_refl _) frameHeight frameIt
    (List.replicate (framePixelLineSize * frameHeight) 0) 0 hb
    (fun r hr => by
      rw [List.length_replicate]
      calc 0 + r * framePixelLineSize + framePixelLineSize
          = (r + 1) * framePixelLineSize := by ring
        _ ≤ frameHeight * framePixelLineSize := Nat.mul_le_mul_right _ hr
        _ = framePixelLineSize * frameHeight := Nat.mul_comm _ _)
  refine ⟨frame, ?_, ?_, ?_⟩
  · unfold getFrame
    rw [intMul_of_lt _ _ hsize]
    exact hf
  · rw [copyPixelBlock_length _ _ _ _ _ _ _ _ _ hf, List.length_replicate]
  · intro r b hr hb'
    have := hrows r b hr hb'
    rwa [Nat.zero_add] at this

/-- Every source row of every frame of the grid ends inside the image, whether the
grid divides the image evenly or not. -/
theorem grid_position_le (fileWidth fileHeight columns rows i r : Nat)
    (hi : i < columns * rows) (hr : r < fileHeight / rows) :
    cellOffset columns (fileWidth / columns) (fileHeight / rows) i +
        r * (fileWidth * PixelSize) + fileWidth / columns * PixelSize ≤
      fileWidth * fileHeight * PixelSize := by
  have hcol : 0 < columns := by
    rcases Nat.eq_zero_or_pos columns with h | h
    · subst h; simp at hi
    · exact h
  have hw : fileWidth / columns * columns ≤ fileWidth := Nat.div_mul_le_self _ _
  have hh : fileHeight / rows * rows ≤ fileHeight := Nat.div_mul_le_self _ _
  have hy : i / columns < rows := Nat.div_lt_of_lt_mul hi
  have hx : i % columns < columns := Nat.mod_lt _ hcol
  unfold cellOffset
  generalize fileWidth / columns = fw at *
  generalize fileHeight / rows = fh at *
  generalize i / columns = y at *
  generalize i % columns = x at *
  have h1 : y * (columns * fw * fh * PixelSize) ≤ y * fh * (fileWidth * PixelSize) := by
    calc y * (columns * fw * fh * PixelSize) = y * fh * (fw * columns * PixelSize) := by ring
      _ ≤ y * fh * (fileWidth * PixelSize) :=
          Nat.mul_le_mul_left _ (Nat.mul_le_mul_right _ hw)
  have h2 : x * (fw * PixelSize) + fw * PixelSize ≤ fileWidth * PixelSize := by
    calc x * (fw * PixelSize) + fw * PixelSize = (x + 1) * fw * PixelSize := by ring
      _ ≤ columns * fw * PixelSize :=
          Nat.mul_le_mul_right _ (Nat.mul_le_mul_right _ hx)
      _ = fw * columns * PixelSize := by ring
      _ ≤ fileWidth * PixelSize := Nat.mul_le_mul_right _ hw
  have h3 : y * fh + r + 1 ≤ fileHeight := by
    calc y * fh + r + 1 ≤ y * fh + fh := by omega
      _ = (y + 1) * fh := by ring
      _ ≤ rows * fh := Nat.mul_le_mul_right _ hy
      _ = fh * rows := Nat.mul_comm _ _
      _ ≤ fileHeight := hh
  calc y * (columns * fw * fh * PixelSize) + x * (fw * PixelSize) +
        r * (fileWidth * PixelSize) + fw * PixelSize
      ≤ y * fh * (fileWidth * PixelSize) + r * (fileWidth * PixelSize) +
          fileWidth * PixelSize := by omega
    _ = (y * fh + r + 1) * (fileWidth * PixelSize) := by ring
    _ ≤ fileHeight * (fileWidth * PixelSize) := Nat.mul_le_mul_right _ h3
    _ = fileWidth * fileHeight * PixelSize := by ring

/-- A frame of 2 GiB or more: the `int` product of line 52 overflows and `getFrame`
is undefined. -/
theorem getFrame_none_of_le (imageData : ImageData) (frameIt framePixelLineSize
    filePixelLineSize frameHeight : Nat) (h : 2 ^ 31 ≤ framePixelLineSize * frameHeight) :
    getFrame imageData frameIt framePixelLineSize filePixelLineSize frameHeight = none := by
  unfold getFrame
  rw [intMul_of_le _ _ h]
  rfl

/-- The body of the loop of `main` is undefined when the frame it cuts has 2 GiB or
more. -/
theorem extractFrame_none_of_le (imageData : ImageData) (fileWidth fileHeight columns rows
    i a b c : Nat)
    (ha : toInt (unsignedMul (fileWidth / columns) PixelSize) = some a)
    (hb : toInt (unsignedMul fileWidth PixelSize) = some b)
    (hc : toInt (fileHeight / rows) = some c) (h : 2 ^ 31 ≤ a * c) :
    extractFrame imageData fileWidth fileHeight columns rows i = none := by
  unfold extractFrame
  rw [ha, hb, hc]
  simp only [Option.some_bind]
  exact getFrame_none_of_le _ _ _ _ _ h

/-- While a row of the image and the image itself are below 4 GiB no `unsigned`
product of lines 141-150 wraps around, and the offset of a frame of the grid is
its offset in exact arithmetic. -/
theorem frameOffset_eq_cellOffset (fileWidth fileHeight columns rows i : Nat)
    (hi : i < columns * rows) (hw : fileWidth * PixelSize < 2 ^ 32)
    (hb : fileWidth * fileHeight * PixelSize < 2 ^ 32) :
    frameOffset fileWidth fileHeight columns rows i =
      cellOffset columns (fileWidth / columns) (fileHeight / rows) i := by
  have hcol : 0 < columns := by
    rcases Nat.eq_zero_or_pos columns with h | h
    · subst h; simp at hi
    · exact h
  have hwd : fileWidth / columns * columns ≤ fileWidth := Nat.div_mul_le_self _ _
  have hhd : fileHeight / rows * rows ≤ fileHeight := Nat.div_mul_le_self _ _
  have hy : i / columns < rows := Nat.div_lt_of_lt_mul hi
  have hx : i % columns < columns := Nat.mod_lt _ hcol
  unfold frameOffset cellOffset
  generalize fileWidth / columns = fw at *
  generalize fileHeight / rows = fh at *
  generalize i / columns = y at *
  generalize i % columns = x at *
  have hfw : fw ≤ fileWidth := le_trans (Nat.le_mul_of_pos_right _ hcol) hwd
  have hfh : fh ≤ fileHeight := le_trans (Nat.le_mul_of_pos_right _ (by omega)) hhd
  have hyfh : y * fh ≤ fileHeight :=
    le_trans (by rw [Nat.mul_comm]; exact Nat.mul_le_mul_left _ (Nat.le_of_lt hy)) hhd
  have hxfw : x * fw ≤ fileWidth :=
    le_trans (by rw [Nat.mul_comm]; exact Nat.mul_le_mul_left _ (Nat.le_of_lt hx)) hwd
  have e1 : unsignedMul fw PixelSize = fw * PixelSize :=
    unsignedMul_of_lt _ _ (lt_of_le_of_lt (Nat.mul_le_mul_right _ hfw) hw)
  have e2 : unsignedMul (fw * PixelSize) fh = fw * PixelSize * fh :=
    unsignedMul_of_lt _ _ (by
      calc fw * PixelSize * fh ≤ fileWidth * PixelSize * fileHeight :=
            Nat.mul_le_mul (Nat.mul_le_mul_right _ hfw) hfh
        _ = fileWidth * fileHeight * PixelSize := by ring
        _ < 2 ^ 32 := hb)
  have e3 : unsignedMul (fw * PixelSize * fh) columns = fw * PixelSize * fh * columns :=
    unsignedMul_of_lt _ _ (by
      calc fw * PixelSize * fh * columns = fw * columns * (fh * PixelSize) := by ring
        _ ≤ fileWidth * (fileHeight * PixelSize) :=
            Nat.mul_le_mul hwd (Nat.mul_le_mul_right _ hfh)
        _ = fileWidth * fileHeight * PixelSize := by ring
        _ < 2 ^ 32 := hb)
  have e4 : unsignedMul y (fw * PixelSize * fh * columns) =
      y * (fw * PixelSize * fh * columns) :=
    unsignedMul_of_lt _ _ (by
      calc y * (fw * PixelSize * fh * columns) = fw * columns * (y * fh * PixelSize) := by ring
        _ ≤ fileWidth * (fileHeight * PixelSize) :=
            Nat.mul_le_mul hwd (Nat.mul_le_mul_right _ hyfh)
        _ = fileWidth * fileHeight * PixelSize := by ring
        _ < 2 ^ 32 := hb)
  have e5 : unsignedMul x (fw * PixelSize) = x * (fw * PixelSize) :=
    unsignedMul_of_lt _ _ (by
      calc x * (fw * PixelSize) = x * fw * PixelSize := by ring
        _ ≤ fileWidth * PixelSize := Nat.mul_le_mul_right _ hxfw
        _ < 2 ^ 32 := hw)
  rw [e1, e2, e3, e4, e5]
  ring

/-- On an image below 4 GiB every source row of every frame of the grid, at the
offset `main` computes, ends inside the image, whether the grid divides the image
evenly or not. -/
theorem source_position_le (fileWidth fileHeight columns rows i r : Nat)
    (hi : i < columns * rows) (hr : r < fileHeight / rows)
    (hw : fileWidth * PixelSize < 2 ^ 32)
    (hb : fileWidth * fileHeight * PixelSize < 2 ^ 32) :
    frameOffset fileWidth fileHeight columns rows i + r * (fileWidth * PixelSize) +
        fileWidth / columns * PixelSize ≤ fileWidth * fileHeight * PixelSize := by
  rw [frameOffset_eq_cellOffset fileWidth fileHeight columns rows i hi hw hb]
  exact grid_position_le fileWidth fileHeight columns rows i r hi hr

/-- On an image of `fileWidth * fileHeight` pixels, below 2 GiB, the body of the
loop of `main` succeeds at every frame index of the grid. -/
theorem extractFrame_spec (imageData : ImageData) (fileWidth fileHeight columns rows i : Nat)
    (hlen : imageData.length = fileWidth * fileHeight * PixelSize) (hi : i < columns * rows)
    (hfit : SourceFits fileWidth fileHeight) :
    ∃ frame, extractFrame imageData fileWidth fileHeight columns rows i = some frame ∧
      frame.length = fileWidth / columns * PixelSize * (fileHeight / rows) ∧
      ∀ r b, r < fileHeight / rows → b < fileWidth / columns * PixelSize →
        frame[r * (fileWidth / columns * PixelSize) + b]? =
          imageData[frameOffset fileWidth fileHeight columns rows i +
            r * (fileWidth * PixelSize) + b]? := by
  obtain ⟨hw, hh, hb⟩ := hfit
  have hcol : 0 < columns := by
    rcases Nat.eq_zero_or_pos columns with h | h
    · subst h; simp at hi
    · exact h
  have hrow : 0 < rows := by
    rcases Nat.eq_zero_or_pos rows with h | h
    · subst h; simp at hi
    · exact h
  have hfw : fileWidth / columns ≤ fileWidth := Nat.div_le_self _ _
  have hfh : fileHeight / rows ≤ fileHeight := Nat.div_le_self _ _
  have h1 : fileWidth / columns * PixelSize < 2 ^ 31 :=
    lt_of_le_of_lt (Nat.mul_le_mul_right _ hfw) hw
  have h2 : fileWidth / columns * PixelSize * (fileHeight / rows) < 2 ^ 31 := by
    calc fileWidth / columns * PixelSize * (fileHeight / rows)
        ≤ fileWidth * PixelSize * fileHeight :=
          Nat.mul_le_mul (Nat.mul_le_mul_right _ hfw) hfh
      _ = fileWidth * fileHeight * PixelSize := by ring
      _ < 2 ^ 31 := hb
  unfold extractFrame
  rw [unsignedMul_of_lt _ _ (by omega), unsignedMul_of_lt _ _ (by omega),
    toInt_of_lt _ h1, toInt_of_lt _ hw, toInt_of_lt _ (by omega)]
  simp only [Option.some_bind]
  apply getFrame_spec _ _ _ _ _ h2
  intro r hr
  rw [hlen]
  exact source_position_le fileWidth fileHeight columns rows i r hi hr (by omega) (by omega)

theorem mapM_option_spec {α β : Type} (body : α → Option β) :
    ∀ (l : List α), (∀ a ∈ l, ∃ f, body a = some f) →
      ∃ fs : List β, l.mapM body = some fs ∧ fs.length = l.length ∧
        ∀ (k : Nat) (f : β), fs[k]? = some f → ∃ a : α, l[k]? = some a ∧ body a = some f := by
  intro l
  induction l with
  | nil => intro _; exact ⟨[], by rw [List.mapM_nil]; rfl, rfl, fun k f h => by simp at h⟩
  | cons a l ih =>
    intro h
    obtain ⟨f, hf⟩ := h a (List.mem_cons_self _ _)
    obtain ⟨fs, hfs, hl, hk⟩ := ih (fun b hb => h b (List.mem_cons_of_mem _ hb))
    refine ⟨f :: fs, by rw [List.mapM_cons, hf, hfs]; rfl, by simp [hl], ?_⟩
    intro k g hg
    cases k with
    | zero =>
      simp only [List.getElem?_cons_zero, Option.some.injEq] at hg
      subst hg
      exact ⟨a, by simp, hf⟩
    | succ k =>
      simp only [List.getElem?_cons_succ] at hg ⊢
      exact hk k g hg

theorem lt_ceilDiv_iff (n s k : Nat) (hs : 1 ≤ s) : k < ceilDiv n s ↔ k * s < n := by
  unfold ceilDiv
  rw [Nat.lt_iff_add_one_le, Nat.le_div_iff_mul_le hs, Nat.succ_mul]
  omega

/-- The last index the loop of `main` computes is below `n + s`. -/
theorem ceilDiv_mul_lt (n s : Nat) (hs : 1 ≤ s) : ceilDiv n s * s < n + s := by
  unfold ceilDiv
  have := Nat.div_mul_le_self (n + s - 1) s
  omega

/-- The pipeline of `main` on a decoded image below 2 GiB, for a grid with at least
one column and one row (whether it divides the image evenly or not), a positive
step that keeps the frame index an `int` and a positive column limit, when the
output sheet is in range: the run ends in `saveFile`, and cell `k` of the sheet
holds the source frame `k * step`. -/
theorem main_spec (imageData : ImageData) (fileWidth fileHeight columns rows
    maxColumns step fuel : Nat)
    (hlen : imageData.length = fileWidth * fileHeight * PixelSize)
    (hcols : 1 ≤ columns) (hrows : 1 ≤ rows) (hmax : 1 ≤ maxColumns) (hstep : 1 ≤ step)
    (hfuel : ceilDiv (columns * rows) step < fuel)
    (hfit : SourceFits fileWidth fileHeight) (hsel : columns * rows + step ≤ 2 ^ 31)
    (hr : InRange maxColumns (fileWidth / columns) (fileHeight / rows)
      (ceilDiv (columns * rows) step)) :
    ∃ sheet, main (.ok (imageData, fileWidth, fileHeight)) columns rows maxColumns step fuel =
        some (.saved sheet) ∧
      sheet.width =
        horizontalFrames maxColumns (ceilDiv (columns * rows) step) * (fileWidth / columns) ∧
      sheet.height =
        ceilDiv (ceilDiv (columns * rows) step)
          (horizontalFrames maxColumns (ceilDiv (columns * rows) step)) * (fileHeight / rows) ∧
      sheet.image.length = sheet.width * sheet.height * PixelSize ∧
      (∀ k r b, k < ceilDiv (columns * rows) step → r < fileHeight / rows →
        b < fileWidth / columns * PixelSize →
        sheet.image[cellOffset (horizontalFrames maxColumns (ceilDiv (columns * rows) step))
            (fileWidth / columns) (fileHeight / rows) k +
          r * (horizontalFrames maxColumns (ceilDiv (columns * rows) step) *
            (fileWidth / columns) * PixelSize) + b]? =
        imageData[frameOffset fileWidth fileHeight columns rows (k * step) +
          r * (fileWidth * PixelSize) + b]?) ∧
      (∀ p, p < sheet.image.length →
        (∀ k r b, k < ceilDiv (columns * rows) step → r < fileHeight / rows →
          b < fileWidth / columns * PixelSize →
          p ≠ cellOffset (horizontalFrames maxColumns (ceilDiv (columns * rows) step))
              (fileWidth / columns) (fileHeight / rows) k +
            r * (horizontalFrames maxColumns (ceilDiv (columns * rows) step) *
              (fileWidth / columns) * PixelSize) + b) →
        sheet.image[p]? = some 0) := by
  have hn1 : 1 ≤ columns * rows := Nat.mul_pos hcols hrows
  have hm1 : 1 ≤ ceilDiv (columns * rows) step := ceilDiv_pos _ _ hstep hn1
  -- the frames the loop collects
  have hloop := mainLoop_run (columns * rows) step
    (extractFrame imageData fileWidth fileHeight columns rows) hstep
    (ceilDiv (columns * rows) step) 0 [] fuel (by simp) hfuel
    (by have := ceilDiv_mul_lt (columns * rows) step hstep; omega)
  obtain ⟨frames, hframes, hcount, hget⟩ := mapM_option_spec
    (extractFrame imageData fileWidth fileHeight columns rows)
    ((List.range (ceilDiv (columns * rows) step)).map fun k => 0 + k * step)
    (fun a ha => by
      obtain ⟨k, hk, rfl⟩ := List.mem_map.mp ha
      rw [List.mem_range, lt_ceilDiv_iff _ _ _ hstep] at hk
      obtain ⟨f, hf, _⟩ := extractFrame_spec imageData fileWidth fileHeight columns rows
        (0 + k * step) hlen (by omega) hfit
      exact ⟨f, hf⟩)
  rw [hframes] at hloop
  simp only [Option.map_some', List.nil_append] at hloop
  simp only [List.length_map, List.length_range] at hcount
  -- every collected frame is the frame `k * step` of the source
  have hframe : ∀ k f, frames[k]? = some f →
      k < ceilDiv (columns * rows) step ∧
      extractFrame imageData fileWidth fileHeight columns rows (k * step) = some f := by
    intro k f hk
    obtain ⟨a, ha, hb⟩ := hget k f hk
    have hklt : k < ceilDiv (columns * rows) step := by
      rw [← hcount]
      exact (List.getElem?_eq_some_iff.mp hk).1
    rw [List.getElem?_map, List.getElem?_range hklt] at ha
    simp only [Option.map_some', Option.some.injEq] at ha
    subst ha
    rw [Nat.zero_add] at hb
    exact ⟨hklt, hb⟩
  have hsize : ∀ f ∈ frames,
      f.length = fileWidth / columns * PixelSize * (fileHeight / rows) := by
    intro f hf
    obtain ⟨k, hk⟩ := List.getElem?_of_mem hf
    obtain ⟨hklt, hex⟩ := hframe k f hk
    obtain ⟨g, hg, hgl, _⟩ := extractFrame_spec imageData fileWidth fileHeight columns rows
      (k * step) hlen ((lt_ceilDiv_iff _ _ _ hstep).mp hklt) hfit
    rw [hex] at hg
    cases hg
    exact hgl
  obtain ⟨sheet, hsave, hw, hh, hl, hplace, hzero⟩ := saveFile_spec maxColumns
    (fileWidth / columns) (fileHeight / rows) frames hmax (by rw [hcount]; exact hm1) hsize
    (by rw [hcount]; exact hr)
  rw [hcount] at hw hh hplace hzero
  refine ⟨sheet, ?_, hw, hh, hl, ?_, hzero⟩
  · have hfw : fileWidth / columns ≤ fileWidth := Nat.div_le_self _ _
    have hfh : fileHeight / rows ≤ fileHeight := Nat.div_le_self _ _
    obtain ⟨hw, hh, _⟩ := hfit
    have hw4 : fileWidth ≤ fileWidth * PixelSize := Nat.le_mul_of_pos_right _ (by decide)
    unfold main
    rw [intMul_of_lt _ _ (by omega)]
    simp only [Option.some_bind]
    rw [if_neg (by omega), hloop, toInt_of_lt _ (by omega), toInt_of_lt _ (by omega)]
    simp only [Option.some_bind, hsave, Option.map_some']
  · intro k r b hk hr' hb
    have hk1 : k < frames.length := by rw [hcount]; exact hk
    obtain ⟨f, hkf⟩ : ∃ f, frames[k]? = some f := ⟨frames[k], List.getElem?_eq_getElem hk1⟩
    obtain ⟨_, hex⟩ := hframe k f hkf
    obtain ⟨g, hg, _, hgrows⟩ := extractFrame_spec imageData fileWidth fileHeight columns rows
      (k * step) hlen ((lt_ceilDiv_iff _ _ _ hstep).mp hk) hfit
    rw [hex] at hg
    cases hg
    rw [hplace k r b _ hkf hr' hb, hgrows r b hr' hb]

/-- More fuel does not change a finished run of the loop of `main`. -/
theorem mainLoop_mono {α : Type} (frameNumber step : Nat) (body : Nat → Option α) :
    ∀ (fuel frameIndex : Nat) (acc result : List α),
      mainLoop frameNumber step body fuel frameIndex acc = some result →
      ∀ more, mainLoop frameNumber step body (fuel + more) frameIndex acc = some result := by
  intro fuel
  induction fuel with
  | zero => intro _ _ _ h; simp [mainLoop] at h
  | succ n ih =>
    intro frameIndex acc result h more
    rw [show n + 1 + more = (n + more) + 1 by omega, mainLoop]
    rw [mainLoop] at h
    split
    · rename_i hlt
      rw [if_pos hlt] at h
      cases hb : body frameIndex with
      | none => rw [hb] at h; simp at h
      | some f =>
        rw [hb] at h
        simp only [Option.some_bind] at h ⊢
        cases hn : intAdd frameIndex step with
        | none => rw [hn] at h; simp at h
        | some next =>
          rw [hn] at h
          simp only [Option.some_bind] at h ⊢
          exact ih _ _ _ h more
    · rename_i hlt
      rw [if_neg hlt] at h
      exact h

/-- More fuel does not change a finished run of `main`. -/
theorem main_mono (loaded : Except String (ImageData × Nat × Nat))
    (columns rows maxColumns step fuel more : Nat) (e : Exit)
    (h : main loaded columns rows maxColumns step fuel = some e) :
    main loaded columns rows maxColumns step (fuel + more) = some e := by
  unfold main at h ⊢
  cases hn : intMul columns rows with
  | none => rw [hn] at h; simp at h
  | some frameNumber =>
    rw [hn] at h
    simp only [Option.some_bind] at h ⊢
    cases loaded with
    | error what => exact h
    | ok d =>
      obtain ⟨imageData, fileWidth, fileHeight⟩ := d
      simp only at h ⊢
      split
      · rename_i h0; rw [if_pos h0] at h; exact h
      · rename_i h0
        rw [if_neg h0] at h
        obtain ⟨frames, hf, hs⟩ := Option.bind_eq_some.mp h
        rw [mainLoop_mono _ _ _ _ _ _ _ hf more]
        exact hs

theorem mapM_some_eq {α : Type} : ∀ (l : List α), l.mapM (some : α → Option α) = some l := by
  intro l
  induction l with
  | nil => rw [List.mapM_nil]; rfl
  | cons a l ih => rw [List.mapM_cons, ih]; rfl

/-! ## Sheets beyond the exact range of `float` -/

/-- A frame that is added at a cursor too close to the end of the image, the whole
frame being readable, is undefined behaviour. -/
theorem addFrame_none (frame : Frame) (image : ImageData) (imageIt frameWidth fileWidth
    frameHeight : Nat) (hfw : 0 < frameWidth) (hfh : 0 < frameHeight)
    (hlen : frame.length = frameWidth * PixelSize * frameHeight)
    (hshort : image.length <
      imageIt + (frameHeight - 1) * (fileWidth * PixelSize) + frameWidth * PixelSize) :
    addFrame frame image imageIt (frameWidth * PixelSize) (fileWidth * PixelSize)
      frameHeight = none := by
  unfold addFrame
  apply copyPixelBlock_none frame _ _ _ (Nat.mul_pos hfw (by decide)) frameHeight 0 image imageIt
    (frameHeight - 1) (by omega)
  · intro r hr
    rw [hlen]
    calc 0 + r * (frameWidth * PixelSize) + frameWidth * PixelSize
        = (r + 1) * (frameWidth * PixelSize) := by ring
      _ ≤ frameHeight * (frameWidth * PixelSize) := Nat.mul_le_mul_right _ (by omega)
      _ = frameWidth * PixelSize * frameHeight := by ring
  · exact hshort

/-- When the size computed at line 71 is less than one frame, `saveFile` on a single
frame is undefined behaviour. -/
theorem saveFile_single_short (maximumHorizontalFrames frameWidth frameHeight size : Nat)
    (frame : Frame) (hmax : 1 ≤ maximumHorizontalFrames)
    (hfw : 0 < frameWidth) (hfh : 0 < frameHeight)
    (hlen : frame.length = frameWidth * PixelSize * frameHeight)
    (hs : imageSize maximumHorizontalFrames frameWidth frameHeight 1 = some size)
    (hshort : size < frameWidth * PixelSize * frameHeight) :
    saveFile maximumHorizontalFrames frameWidth frameHeight [frame] = none := by
  have hc : horizontalFrames maximumHorizontalFrames 1 = 1 := by
    unfold horizontalFrames; omega
  obtain ⟨hf, hfile, _⟩ : ∃ hf, fileHeight maximumHorizontalFrames frameHeight 1 = some hf ∧
      True := by
    unfold imageSize at hs
    obtain ⟨hf, h1, _⟩ := Option.map_eq_some'.mp hs
    exact ⟨hf, h1, trivial⟩
  unfold saveFile
  rw [List.length_singleton, hfile, hs, hc]
  simp only [Option.some_bind]
  rw [saveFileLoop, addFrame_none frame _ 0 frameWidth (1 * frameWidth) frameHeight hfw hfh hlen]
  · rfl
  · rw [List.length_replicate]
    calc size < frameWidth * PixelSize * frameHeight := hshort
      _ = (frameHeight - 1 + 1) * (frameWidth * PixelSize) := by
          rw [Nat.sub_add_cancel hfh]; ring
      _ = 0 + (frameHeight - 1) * (1 * frameWidth * PixelSize) + frameWidth * PixelSize := by
          ring

theorem ceilDiv_of_le (n s : Nat) (hn : 1 ≤ n) (hs : n ≤ s) : ceilDiv n s = 1 := by
  unfold ceilDiv
  rw [show n + s - 1 = (n - 1) + s by omega, Nat.add_div_right _ (by omega),
    Nat.div_eq_of_lt (by omega)]

/-- When only frame `0` of a source below 2 GiB is selected and the size computed
at line 71 is less than this frame, no run of `main` ends. -/
theorem main_single_short (imageData : ImageData) (fileWidth fileHeight columns rows
    maxColumns step size : Nat)
    (hlen : imageData.length = fileWidth * fileHeight * PixelSize)
    (hcols : 1 ≤ columns) (hrows : 1 ≤ rows) (hmax : 1 ≤ maxColumns)
    (hstep : columns * rows ≤ step) (hint : step < 2 ^ 31)
    (hfit : SourceFits fileWidth fileHeight)
    (hfw : 0 < fileWidth / columns) (hfh : 0 < fileHeight / rows)
    (hs : imageSize maxColumns (fileWidth / columns) (fileHeight / rows) 1 = some size)
    (hshort : size < fileWidth / columns * PixelSize * (fileHeight / rows)) (fuel : Nat) :
    main (.ok (imageData, fileWidth, fileHeight)) columns rows maxColumns step fuel = none := by
  have hn1 : 1 ≤ columns * rows := Nat.mul_pos hcols hrows
  have hcnt : ceilDiv (columns * rows - 0) step = 1 := ceilDiv_of_le _ _ hn1 hstep
  have hbig : main (.ok (imageData, fileWidth, fileHeight)) columns rows maxColumns step
      (fuel + 2) = none := by
    obtain ⟨f, hf, hfl, _⟩ := extractFrame_spec imageData fileWidth fileHeight columns rows 0
      hlen (by omega) hfit
    have hdw : fileWidth / columns ≤ fileWidth := Nat.div_le_self _ _
    have hdh : fileHeight / rows ≤ fileHeight := Nat.div_le_self _ _
    obtain ⟨hw, hh, _⟩ := hfit
    have hw4 : fileWidth ≤ fileWidth * PixelSize := Nat.le_mul_of_pos_right _ (by decide)
    unfold main
    rw [intMul_of_lt _ _ (by omega)]
    simp only [Option.some_bind]
    rw [if_neg (by omega), mainLoop_run (columns * rows) step _ (by omega) 1 0 [] (fuel + 2)
      hcnt (by omega) (by omega), toInt_of_lt _ (by omega), toInt_of_lt _ (by omega)]
    have hlist : ((List.range 1).map fun k => 0 + k * step) = [0] := by
      simp [List.range_succ]
    have hmap : List.mapM (extractFrame imageData fileWidth fileHeight columns rows) [0] =
        some [f] := by
      rw [List.mapM_cons, List.mapM_nil, hf]
      rfl
    rw [hlist, hmap]
    simp only [Option.map_some', List.nil_append, Option.some_bind]
    rw [saveFile_single_short maxColumns _ _ size f hmax hfw hfh hfl hs hshort]
    rfl
  cases h : main (.ok (imageData, fileWidth, fileHeight)) columns rows maxColumns step fuel with
  | none => rfl
  | some e =>
    rw [main_mono _ _ _ _ _ _ 2 e h] at hbig
    exact absurd hbig (by simp)

/-- The sheet `saveFile` builds when the image allocated at line 71, of whatever
size, has room for the cells of all frames. -/
theorem saveFile_of_room (maximumHorizontalFrames frameWidth frameHeight height size : Nat)
    (frames : List Frame) (hmax : 1 ≤ maximumHorizontalFrames) (hn1 : 1 ≤ frames.length)
    (hfh : 1 ≤ frameHeight)
    (hlen : ∀ f ∈ frames, f.length = frameWidth * PixelSize * frameHeight)
    (hh : (fileHeight maximumHorizontalFrames frameHeight frames.length).map F32.toNat =
      some height)
    (hs : imageSize maximumHorizontalFrames frameWidth frameHeight frames.length = some size)
    (hroom : ∀ k r, k < frames.length → r < frameHeight →
      cellOffset (horizontalFrames maximumHorizontalFrames frames.length) frameWidth
          frameHeight k +
        r * (horizontalFrames maximumHorizontalFrames frames.length * frameWidth * PixelSize) +
        frameWidth * PixelSize ≤ size) :
    ∃ sheet, saveFile maximumHorizontalFrames frameWidth frameHeight frames = some sheet ∧
      sheet.width = horizontalFrames maximumHorizontalFrames frames.length * frameWidth ∧
      sheet.height = height ∧ sheet.image.length = size ∧
      (∀ i r b f, frames[i]? = some f → r < frameHeight → b < frameWidth * PixelSize →
        sheet.image[cellOffset (horizontalFrames maximumHorizontalFrames frames.length)
            frameWidth frameHeight i +
          r * (horizontalFrames maximumHorizontalFrames frames.length * frameWidth * PixelSize) +
          b]? = f[r * (frameWidth * PixelSize) + b]?) ∧
      (∀ p, p < size →
        (∀ i r b, i < frames.length → r < frameHeight → b < frameWidth * PixelSize →
          p ≠ cellOffset (horizontalFrames maximumHorizontalFrames frames.length)
              frameWidth frameHeight i +
            r * (horizontalFrames maximumHorizontalFrames frames.length * frameWidth *
              PixelSize) + b) →
        sheet.image[p]? = some 0) := by
  obtain ⟨hf, hfile, hheight⟩ := Option.map_eq_some'.mp hh
  have hc1 : 1 ≤ horizontalFrames maximumHorizontalFrames frames.length := by
    unfold horizontalFrames; omega
  obtain ⟨cols, hcols⟩ :
    ∃ cols, horizontalFrames maximumHorizontalFrames frames.length = cols := ⟨_, rfl⟩
  rw [hcols] at hc1 hroom ⊢
  have hunfold : saveFile maximumHorizontalFrames frameWidth frameHeight frames =
      (saveFileLoop cols frameWidth (cols * frameWidth) frameHeight frames
        { x := 0, imageIt := 0, image := List.replicate size 0 }).map fun c =>
        { image := c.image, width := cols * frameWidth, height := F32.toNat hf } := by
    unfold saveFile
    rw [hfile, hs, hcols]
    rfl
  obtain ⟨c1, hc, hl, _, _, hplace, hkeep⟩ := saveFileLoop_spec cols frameWidth frameHeight
    hc1 hfh frames 0 { x := 0, imageIt := 0, image := List.replicate size 0 } hlen
    (fun k r hk hr => by
      rw [List.length_replicate, Nat.zero_add]
      exact hroom k r hk hr)
    (by simp) (by simp [cellOffset])
  simp only [Nat.zero_add] at hplace hkeep
  refine ⟨_, by rw [hunfold, hc]; rfl, rfl, hheight, ?_, hplace, ?_⟩
  · simp only [hl, List.length_replicate]
  · intro p hp hout
    rw [hkeep p hout, List.getElem?_replicate_of_lt hp]

/-- Three frames of 4099 x 4099 pixels in two columns: all three are placed, in an
image that is too short for the fourth cell of the sheet. -/
theorem saveFile_three_4099 (F : Frame) (hF : F.length = 4099 * 4 * 4099) :
    ∃ sheet, saveFile 2 4099 4099 [F, F, F] = some sheet ∧
      sheet.width = 8198 ∧ sheet.height = 8198 ∧ sheet.image.length = 268828800 := by
  obtain ⟨sheet, hs, hw, hh, hl, _, _⟩ := saveFile_of_room 2 4099 4099 8198 268828800 [F, F, F]
    (by decide) (by show 1 ≤ 3; decide) (by decide)
    (fun f hf => by
      have : f = F := by
        simp only [List.mem_cons, List.mem_singleton, List.mem_nil_iff, or_false, or_self] at hf
        exact hf
      rw [this, hF]; decide)
    (by show Option.map F32.toNat (fileHeight 2 4099 3) = some 8198; decide)
    (by show imageSize 2 4099 4099 3 = some 268828800; decide)
    (fun k r hk hr => by
      have h2 : horizontalFrames 2 [F, F, F].length = 2 := by
        show horizontalFrames 2 3 = 2; decide
      have h3 : [F, F, F].length = 3 := rfl
      rw [h2]
      rw [h3] at hk
      unfold cellOffset PixelSize
      interval_cases k <;> omega)
  exact ⟨sheet, hs, by rw [hw]; show horizontalFrames 2 3 * 4099 = 8198; decide, hh, hl⟩

/-! ## The cursor of the composition loop -/

/-- One turn of the loop of `saveFile`: the frame is added, then the cursor
advances. -/
theorem saveFileLoop_cons (columns frameWidth fileWidth frameHeight : Nat) (frame : Frame)
    (rest : List Frame) (c : Cursor) :
    saveFileLoop columns frameWidth fileWidth frameHeight (frame :: rest) c =
      (addFrame frame c.image c.imageIt (frameWidth * PixelSize) (fileWidth * PixelSize)
          frameHeight).bind fun image1 =>
        saveFileLoop columns frameWidth fileWidth frameHeight rest
          { x := (advance columns frameWidth fileWidth frameHeight c.x c.imageIt).1
            imageIt := (advance columns frameWidth fileWidth frameHeight c.x c.imageIt).2
            image := image1 } := by
  rw [saveFileLoop]
  congr 1
  funext image1
  unfold advance
  split <;> rfl

/-- The loop over a list of frames is the loop over a first part followed by the loop
over the rest. -/
theorem saveFileLoop_append (columns frameWidth fileWidth frameHeight : Nat) :
    ∀ (l1 l2 : List Frame) (c : Cursor),
      saveFileLoop columns frameWidth fileWidth frameHeight (l1 ++ l2) c =
        (saveFileLoop columns frameWidth fileWidth frameHeight l1 c).bind
          (saveFileLoop columns frameWidth fileWidth frameHeight l2) := by
  intro l1
  induction l1 with
  | nil => intro l2 c; simp [saveFileLoop]
  | cons f l1 ih =>
    intro l2 c
    rw [List.cons_append, saveFileLoop_cons, saveFileLoop_cons]
    cases addFrame f c.image c.imageIt (frameWidth * PixelSize) (fileWidth * PixelSize)
      frameHeight with
    | none => rfl
    | some image1 => simp only [Option.some_bind]; exact ih _ _

/-- The cursor of a run of the loop of `saveFile` is the one `advance` gives, whatever
the frames hold. -/
theorem saveFileLoop_cursor (maximumHorizontalFrames frameWidth frameHeight frameCount : Nat) :
    ∀ (rest : List Frame) (k : Nat) (c c1 : Cursor),
      (c.x, c.imageIt) = cursorAfter maximumHorizontalFrames frameWidth frameHeight frameCount k →
      saveFileLoop (horizontalFrames maximumHorizontalFrames frameCount) frameWidth
        (horizontalFrames maximumHorizontalFrames frameCount * frameWidth) frameHeight rest c =
        some c1 →
      (c1.x, c1.imageIt) =
        cursorAfter maximumHorizontalFrames frameWidth frameHeight frameCount (k + rest.length) := by
  intro rest
  induction rest with
  | nil =>
    intro k c c1 hc h
    simp only [saveFileLoop, Option.some.injEq] at h
    subst h
    simpa using hc
  | cons f rest ih =>
    intro k c c1 hc h
    rw [saveFileLoop_cons] at h
    obtain ⟨image1, _, h2⟩ := Option.bind_eq_some.mp h
    have := ih (k + 1) _ c1 (by
      rw [cursorAfter, ← hc]) h2
    rw [this, List.length_cons]
    congr 1
    omega

/-- From the offset of cell `i` the cursor advances to the offset of cell `i + 1`. -/
theorem advance_cell (columns frameWidth frameHeight i : Nat) (hcol : 1 ≤ columns)
    (hfh : 1 ≤ frameHeight) :
    advance columns frameWidth (columns * frameWidth) frameHeight (i % columns)
        (cellOffset columns frameWidth frameHeight i) =
      ((i + 1) % columns, cellOffset columns frameWidth frameHeight (i + 1)) := by
  unfold advance
  split
  · rename_i hw
    have hle : frameWidth * PixelSize * (columns - 1) ≤
        columns * frameWidth * frameHeight * PixelSize := by
      calc frameWidth * PixelSize * (columns - 1) ≤ frameWidth * PixelSize * columns :=
            Nat.mul_le_mul_left _ (by omega)
        _ = columns * frameWidth * 1 * PixelSize := by ring
        _ ≤ columns * frameWidth * frameHeight * PixelSize :=
            Nat.mul_le_mul_right _ (Nat.mul_le_mul_left _ hfh)
    obtain ⟨h1, h2⟩ := cellOffset_succ_wrap columns frameWidth frameHeight i hcol hfh hw
    rw [unsignedSub_of_le _ _ hle, h1, h2]
  · rename_i hw
    obtain ⟨h1, h2⟩ := cellOffset_succ_next columns frameWidth frameHeight i hw
    rw [h1, h2]

/-- The cursor of `saveFile` in closed form: after `i` frames it is at the offset of
grid cell `i`, and the column counter is `i % columns`. -/
theorem cursorAfter_eq (maximumHorizontalFrames frameWidth frameHeight frameCount : Nat)
    (hcol : 1 ≤ horizontalFrames maximumHorizontalFrames frameCount) (hfh : 1 ≤ frameHeight) :
    ∀ i, cursorAfter maximumHorizontalFrames frameWidth frameHeight frameCount i =
      (i % horizontalFrames maximumHorizontalFrames frameCount,
        cellOffset (horizontalFrames maximumHorizontalFrames frameCount) frameWidth
          frameHeight i) := by
  intro i
  induction i with
  | zero => simp [cursorAfter, cellOffset]
  | succ i ih =>
    rw [cursorAfter, ih]
    exact advance_cell _ frameWidth frameHeight i hcol hfh

/-- After the last of `n` frames the cursor is not beyond a sheet of
`ceil (n / columns)` rows of cells. -/
theorem cellOffset_le_sheet (columns frameWidth frameHeight n : Nat) (hcol : 1 ≤ columns)
    (hfh : 1 ≤ frameHeight) :
    cellOffset columns frameWidth frameHeight n ≤
      columns * frameWidth * (ceilDiv n columns * frameHeight) * PixelSize := by
  have hn := le_ceilDiv_mul n columns hcol
  have hx : n % columns < columns := Nat.mod_lt _ hcol
  have hdm := Nat.div_add_mod n columns
  obtain ⟨rows, hrows⟩ : ∃ rows, ceilDiv n columns = rows := ⟨_, rfl⟩
  rw [hrows] at hn ⊢
  unfold cellOffset
  rcases Nat.eq_zero_or_pos (n % columns) with h0 | hpos
  · have hy : n / columns ≤ rows := by
      rw [h0, Nat.add_zero] at hdm
      rw [← hdm, Nat.mul_comm] at hn
      exact Nat.le_of_mul_le_mul_right hn hcol
    rw [h0, Nat.zero_mul, Nat.add_zero]
    calc n / columns * (columns * frameWidth * frameHeight * PixelSize)
        ≤ rows * (columns * frameWidth * frameHeight * PixelSize) := Nat.mul_le_mul_right _ hy
      _ = columns * frameWidth * (rows * frameHeight) * PixelSize := by ring
  · have hy : n / columns + 1 ≤ rows := by
      by_contra hcon
      have h1 : rows ≤ n / columns := by omega
      have h2 : rows * columns ≤ n / columns * columns := Nat.mul_le_mul_right _ h1
      rw [Nat.mul_comm (n / columns)] at h2
      omega
    have hrow : n % columns * (frameWidth * PixelSize) ≤
        columns * frameWidth * frameHeight * PixelSize := by
      calc n % columns * (frameWidth * PixelSize) ≤ columns * (frameWidth * PixelSize) :=
            Nat.mul_le_mul_right _ hx.le
        _ = columns * frameWidth * 1 * PixelSize := by ring
        _ ≤ columns * frameWidth * frameHeight * PixelSize :=
            Nat.mul_le_mul_right _ (Nat.mul_le_mul_left _ hfh)
    calc n / columns * (columns * frameWidth * frameHeight * PixelSize) +
          n % columns * (frameWidth * PixelSize)
        ≤ n / columns * (columns * frameWidth * frameHeight * PixelSize) +
          columns * frameWidth * frameHeight * PixelSize := Nat.add_le_add_left hrow _
      _ = (n / columns + 1) * (columns * frameWidth * frameHeight * PixelSize) := by ring
      _ ≤ rows * (columns * frameWidth * frameHeight * PixelSize) := Nat.mul_le_mul_right _ hy
      _ = columns * frameWidth * (rows * frameHeight) * PixelSize := by ring

/-- When the image is too short for the last row of one of the cells, the loop of
`saveFile` over frames of one non-empty size is undefined behaviour. -/
theorem saveFileLoop_none (columns frameWidth frameHeight : Nat) (hcol : 1 ≤ columns)
    (hfw : 1 ≤ frameWidth) (hfh : 1 ≤ frameHeight) :
    ∀ (rest : List Frame) (i : Nat) (c : Cursor) (k : Nat),
      (∀ f ∈ rest, f.length = frameWidth * PixelSize * frameHeight) →
      c.x = i % columns → c.imageIt = cellOffset columns frameWidth frameHeight i →
      k < rest.length →
      c.image.length < cellOffset columns frameWidth frameHeight (i + k) +
        (frameHeight - 1) * (columns * frameWidth * PixelSize) + frameWidth * PixelSize →
      saveFileLoop columns frameWidth (columns * frameWidth) frameHeight rest c = none := by
  intro rest
  induction rest with
  | nil => intro _ _ k _ _ _ hk; simp at hk
  | cons frame rest ih =>
    intro i c k hlen hx hit hk hshort
    rw [saveFileLoop_cons]
    cases k with
    | zero =>
      rw [Nat.add_zero, ← hit] at hshort
      rw [addFrame_none frame c.image c.imageIt frameWidth (columns * frameWidth) frameHeight
        hfw hfh (hlen frame (List.mem_cons_self _ _)) hshort]
      rfl
    | succ k =>
      cases hadd : addFrame frame c.image c.imageIt (frameWidth * PixelSize)
        (columns * frameWidth * PixelSize) frameHeight with
      | none => rfl
      | some image1 =>
        simp only [Option.some_bind]
        have hl : image1.length = c.image.length := by
          unfold addFrame at hadd
          exact copyPixelBlock_length _ _ _ _ _ _ _ _ _ hadd
        have hadv := advance_cell columns frameWidth frameHeight i hcol hfh
        rw [← hx, ← hit] at hadv
        apply ih (i + 1) _ k (fun f hf => hlen f (List.mem_cons_of_mem _ hf))
        · simp only [hadv]
        · simp only [hadv]
        · simp only [List.length_cons] at hk; omega
        · simp only [hl]
          rw [show i + 1 + k = i + (k + 1) by omega]
          exact hshort

/-! ## Undefined behaviour of the pipeline on a short image -/

/-- When the size computed at line 71 is too small for the last row of the cell of
one of the frames, `saveFile` is undefined behaviour. -/
theorem saveFile_none_of_short (maximumHorizontalFrames frameWidth frameHeight size k : Nat)
    (frames : List Frame) (hmax : 1 ≤ maximumHorizontalFrames)
    (hfw : 1 ≤ frameWidth) (hfh : 1 ≤ frameHeight)
    (hlen : ∀ f ∈ frames, f.length = frameWidth * PixelSize * frameHeight)
    (hs : imageSize maximumHorizontalFrames frameWidth frameHeight frames.length = some size)
    (hk : k < frames.length)
    (hshort : size <
      cellOffset (horizontalFrames maximumHorizontalFrames frames.length) frameWidth
          frameHeight k +
        (frameHeight - 1) *
          (horizontalFrames maximumHorizontalFrames frames.length * frameWidth * PixelSize) +
        frameWidth * PixelSize) :
    saveFile maximumHorizontalFrames frameWidth frameHeight frames = none := by
  have hc1 : 1 ≤ horizontalFrames maximumHorizontalFrames frames.length := by
    unfold horizontalFrames; omega
  obtain ⟨hf, hfile⟩ : ∃ hf, fileHeight maximumHorizontalFrames frameHeight frames.length =
      some hf := by
    unfold imageSize at hs
    obtain ⟨hf, h1, _⟩ := Option.map_eq_some'.mp hs
    exact ⟨hf, h1⟩
  unfold saveFile
  rw [hfile, hs]
  simp only [Option.some_bind]
  rw [saveFileLoop_none _ frameWidth frameHeight hc1 hfw hfh frames 0 _ k hlen (by simp)
    (by simp [cellOffset]) hk (by
      rw [Nat.zero_add]
      simpa using hshort)]
  rfl

/-- The frames the loop of `main` collects from a decoded image below 2 GiB, with a
step that keeps the frame index an `int`: one for each selected index, all of the
frame size of the grid, frame `k` being the extraction at `k * step`. -/
theorem mainLoop_frames (imageData : ImageData) (fileWidth fileHeight columns rows
    step fuel : Nat)
    (hlen : imageData.length = fileWidth * fileHeight * PixelSize) (hstep : 1 ≤ step)
    (hfuel : ceilDiv (columns * rows) step < fuel)
    (hfit : SourceFits fileWidth fileHeight) (hsel : columns * rows + step ≤ 2 ^ 31) :
    ∃ frames, mainLoop (columns * rows) step
        (extractFrame imageData fileWidth fileHeight columns rows) fuel 0 [] = some frames ∧
      frames.length = ceilDiv (columns * rows) step ∧
      (∀ f ∈ frames, f.length = fileWidth / columns * PixelSize * (fileHeight / rows)) ∧
      ∀ k f, frames[k]? = some f →
        extractFrame imageData fileWidth fileHeight columns rows (k * step) = some f := by
  have hloop := mainLoop_run (columns * rows) step
    (extractFrame imageData fileWidth fileHeight columns rows) hstep
    (ceilDiv (columns * rows) step) 0 [] fuel (by simp) hfuel
    (by have := ceilDiv_mul_lt (columns * rows) step hstep; omega)
  obtain ⟨frames, hframes, hcount, hget⟩ := mapM_option_spec
    (extractFrame imageData fileWidth fileHeight columns rows)
    ((List.range (ceilDiv (columns * rows) step)).map fun k => 0 + k * step)
    (fun a ha => by
      obtain ⟨k, hk, rfl⟩ := List.mem_map.mp ha
      rw [List.mem_range, lt_ceilDiv_iff _ _ _ hstep] at hk
      obtain ⟨f, hf, _⟩ := extractFrame_spec imageData fileWidth fileHeight columns rows
        (0 + k * step) hlen (by omega) hfit
      exact ⟨f, hf⟩)
  rw [hframes] at hloop
  simp only [Option.map_some', List.nil_append] at hloop
  simp only [List.length_map, List.length_range] at hcount
  have hframe : ∀ k f, frames[k]? = some f →
      k < ceilDiv (columns * rows) step ∧
      extractFrame imageData fileWidth fileHeight columns rows (k * step) = some f := by
    intro k f hk
    obtain ⟨a, ha, hb⟩ := hget k f hk
    have hklt : k < ceilDiv (columns * rows) step := by
      rw [← hcount]
      exact (List.getElem?_eq_some_iff.mp hk).1
    rw [List.getElem?_map, List.getElem?_range hklt] at ha
    simp only [Option.map_some', Option.some.injEq] at ha
    subst ha
    rw [Nat.zero_add] at hb
    exact ⟨hklt, hb⟩
  refine ⟨frames, hloop, hcount, ?_, fun k f hk => (hframe k f hk).2⟩
  intro f hf
  obtain ⟨k, hk⟩ := List.getElem?_of_mem hf
  obtain ⟨hklt, hex⟩ := hframe k f hk
  obtain ⟨g, hg, hgl, _⟩ := extractFrame_spec imageData fileWidth fileHeight columns rows
    (k * step) hlen ((lt_ceilDiv_iff _ _ _ hstep).mp hklt) hfit
  rw [hex] at hg
  cases hg
  exact hgl

/-- When the size computed at line 71 is too small for the cell of one of the selected
frames, no run of `main` on a decoded image below 2 GiB ends. -/
theorem main_none_of_short (imageData : ImageData) (fileWidth fileHeight columns rows
    maxColumns step size k : Nat)
    (hlen : imageData.length = fileWidth * fileHeight * PixelSize)
    (hcols : 1 ≤ columns) (hrows : 1 ≤ rows) (hmax : 1 ≤ maxColumns) (hstep : 1 ≤ step)
    (hfit : SourceFits fileWidth fileHeight) (hsel : columns * rows + step ≤ 2 ^ 31)
    (hfw : 1 ≤ fileWidth / columns) (hfh : 1 ≤ fileHeight / rows)
    (hs : imageSize maxColumns (fileWidth / columns) (fileHeight / rows)
      (ceilDiv (columns * rows) step) = some size)
    (hk : k < ceilDiv (columns * rows) step)
    (hshort : size <
      cellOffset (horizontalFrames maxColumns (ceilDiv (columns * rows) step))
          (fileWidth / columns) (fileHeight / rows) k +
        (fileHeight / rows - 1) *
          (horizontalFrames maxColumns (ceilDiv (columns * rows) step) * (fileWidth / columns) *
            PixelSize) +
        fileWidth / columns * PixelSize) (fuel : Nat) :
    main (.ok (imageData, fileWidth, fileHeight)) columns rows maxColumns step fuel = none := by
  have hbig : main (.ok (imageData, fileWidth, fileHeight)) columns rows maxColumns step
      (fuel + (ceilDiv (columns * rows) step + 1)) = none := by
    obtain ⟨frames, hloop, hcount, hsizes, _⟩ := mainLoop_frames imageData fileWidth fileHeight
      columns rows step (fuel + (ceilDiv (columns * rows) step + 1)) hlen hstep (by omega)
      hfit hsel
    have hdw : fileWidth / columns ≤ fileWidth := Nat.div_le_self _ _
    have hdh : fileHeight / rows ≤ fileHeight := Nat.div_le_self _ _
    obtain ⟨hw, hh, _⟩ := hfit
    have hw4 : fileWidth ≤ fileWidth * PixelSize := Nat.le_mul_of_pos_right _ (by decide)
    unfold main
    rw [intMul_of_lt _ _ (by omega)]
    simp only [Option.some_bind]
    rw [if_neg (by omega), hloop, toInt_of_lt _ (by omega), toInt_of_lt _ (by omega)]
    simp only [Option.some_bind]
    rw [saveFile_none_of_short maxColumns _ _ size k frames hmax hfw hfh hsizes
      (by rw [hcount]; exact hs) (by rw [hcount]; exact hk) (by rw [hcount]; exact hshort)]
    rfl
  cases h : main (.ok (imageData, fileWidth, fileHeight)) columns rows maxColumns step fuel with
  | none => rfl
  | some e =>
    rw [main_mono _ _ _ _ _ _ _ e h] at hbig
    exact absurd hbig (by simp)

/-! ## Further facts used by the claims -/

/-- The float nearest to a positive quotient is not zero. -/
theorem F32.round_num_pos (p q : Nat) (hp : 0 < p) (hq : 0 < q) : 0 < (F32.round p q).num := by
  unfold F32.round
  rw [if_neg (by omega)]
  split
  · rename_i hbig
    have hk := F32.scaleDown_spec p q p 0
    generalize F32.scaleDown p q p 0 = k at hk
    have hle : q * 2 ^ k ≤ p := by
      rcases hk with h | h
      · subst h
        calc q * 2 ^ 0 ≤ q * 2 ^ 24 := Nat.mul_le_mul_left _ (Nat.pow_le_pow_right (by norm_num)
              (by norm_num))
          _ ≤ p := hbig
      · calc q * 2 ^ k ≤ q * 2 ^ (24 + (k - 1)) :=
              Nat.mul_le_mul_left _ (Nat.pow_le_pow_right (by norm_num) (by omega))
          _ ≤ p := h
    have hpos : 0 < q * 2 ^ k := by positivity
    have h1 : 1 ≤ p / (q * 2 ^ k) := (Nat.one_le_div_iff hpos).mpr hle
    have h2 := F32.roundNearestEven_ge p (q * 2 ^ k)
    simp only
    exact Nat.mul_pos (by omega) (by positivity)
  · have hj := F32.scaleUp_round p q hp
    generalize F32.scaleUp p q (q + 23) 0 = j at hj
    have hle : q ≤ p * 2 ^ j := by
      calc q = q * 1 := (Nat.mul_one q).symm
        _ ≤ q * 2 ^ 23 := Nat.mul_le_mul_left _ (by norm_num)
        _ ≤ p * 2 ^ j := hj
    have h1 : 1 ≤ p * 2 ^ j / q := (Nat.one_le_div_iff hq).mpr hle
    have h2 := F32.roundNearestEven_ge (p * 2 ^ j) q
    simp only
    omega

/-- The conversion of a positive integer to `float` is not zero. -/
theorem F32.ofNat_num_pos (n : Nat) (hn : 0 < n) : 0 < (F32.ofNat n).num :=
  F32.round_num_pos n 1 hn (by norm_num)

/-- With step `0` the loop of `main` never leaves frame `0`: it uses up any fuel. -/
theorem mainLoop_zero_step {α : Type} (frameNumber : Nat) (body : Nat → Option α)
    (hn : 0 < frameNumber) :
    ∀ (fuel : Nat) (acc : List α), mainLoop frameNumber 0 body fuel 0 acc = none := by
  intro fuel
  induction fuel with
  | zero => intro acc; rfl
  | succ n ih =>
    intro acc
    rw [mainLoop, if_pos hn]
    cases body 0 with
    | none => rfl
    | some f => simp only [Option.some_bind, Nat.add_zero]; exact ih _

theorem ceilDiv_le_self (n s : Nat) (hs : 1 ≤ s) : ceilDiv n s ≤ n := by
  rcases Nat.eq_zero_or_pos n with h | h
  · subst h
    unfold ceilDiv
    rw [Nat.zero_add, Nat.div_eq_of_lt (by omega)]
  · by_contra hcon
    have h1 : n < ceilDiv n s := by omega
    have h2 := (lt_ceilDiv_iff n s n hs).mp h1
    have h3 : n * 1 ≤ n * s := Nat.mul_le_mul_left _ hs
    omega

/-- Three frames of 4097 x 4097 pixels in two columns: all three are placed, in an
image shorter than the sheet whose size the encoder is given. -/
theorem saveFile_three_4097 (F : Frame) (hF : F.length = 4097 * 4 * 4097) :
    ∃ sheet, saveFile 2 4097 4097 [F, F, F] = some sheet ∧
      sheet.width = 8194 ∧ sheet.height = 8194 ∧ sheet.image.length = 268566528 := by
  obtain ⟨sheet, hs, hw, hh, hl, _, _⟩ := saveFile_of_room 2 4097 4097 8194 268566528 [F, F, F]
    (by decide) (by show 1 ≤ 3; decide) (by decide)
    (fun f hf => by
      have : f = F := by
        simp only [List.mem_cons, List.mem_singleton, List.mem_nil_iff, or_false, or_self] at hf
        exact hf
      rw [this, hF]; decide)
    (by show Option.map F32.toNat (fileHeight 2 4097 3) = some 8194; decide)
    (by show imageSize 2 4097 4097 3 = some 268566528; decide)
    (fun k r hk hr => by
      have h2 : horizontalFrames 2 [F, F, F].length = 2 := by
        show horizontalFrames 2 3 = 2; decide
      have h3 : [F, F, F].length = 3 := rfl
      rw [h2]
      rw [h3] at hk
      unfold cellOffset PixelSize
      interval_cases k <;> omega)
  exact ⟨sheet, hs, by rw [hw]; show horizontalFrames 2 3 * 4097 = 8194; decide, hh, hl⟩

/-- The cursor arithmetic of `saveFile` for frames at least one pixel high: after `i`
frames the cursor is at `(i / columns) * (outputWidth * frameHeight * 4) +
(i % columns) * (frameWidth * 4)`, the subtraction of line 88 does not fall below zero,
and after the last frame the cursor is not beyond
`outputWidth * (ceil (n / columns) * frameHeight) * 4`. -/
theorem cursor_closed_form (maximumHorizontalFrames frameWidth frameHeight n : Nat)
    (hmax : 1 ≤ maximumHorizontalFrames) (hn1 : 1 ≤ n) (hfh : 1 ≤ frameHeight) :
    (∀ i, cursorAfter maximumHorizontalFrames frameWidth frameHeight n i =
      (i % horizontalFrames maximumHorizontalFrames n,
        i / horizontalFrames maximumHorizontalFrames n *
            (horizontalFrames maximumHorizontalFrames n * frameWidth * frameHeight * 4) +
          i % horizontalFrames maximumHorizontalFrames n * (frameWidth * 4))) ∧
    frameWidth * 4 * (horizontalFrames maximumHorizontalFrames n - 1) ≤
      horizontalFrames maximumHorizontalFrames n * frameWidth * frameHeight * 4 ∧
    (cursorAfter maximumHorizontalFrames frameWidth frameHeight n n).2 ≤
      horizontalFrames maximumHorizontalFrames n * frameWidth *
        (ceilDiv n (horizontalFrames maximumHorizontalFrames n) * frameHeight) * 4 := by
  have hc1 : 1 ≤ horizontalFrames maximumHorizontalFrames n := by
    unfold horizontalFrames; omega
  refine ⟨fun i => cursorAfter_eq _ _ _ _ hc1 hfh i, ?_, ?_⟩
  · generalize horizontalFrames maximumHorizontalFrames n = columns at hc1
    calc frameWidth * 4 * (columns - 1) ≤ frameWidth * 4 * columns :=
          Nat.mul_le_mul_left _ (by omega)
      _ = columns * frameWidth * 1 * 4 := by ring
      _ ≤ columns * frameWidth * frameHeight * 4 :=
          Nat.mul_le_mul_right _ (Nat.mul_le_mul_left _ hfh)
  · rw [cursorAfter_eq _ _ _ _ hc1 hfh n]
    exact cellOffset_le_sheet _ frameWidth frameHeight n hc1 hfh

/-- In range the cursor of `saveFile` ends inside the image of line 71 or at its
end. -/
theorem cursor_in_range (maximumHorizontalFrames frameWidth frameHeight n : Nat)
    (hmax : 1 ≤ maximumHorizontalFrames) (hn1 : 1 ≤ n) (hfh : 1 ≤ frameHeight)
    (hr : InRange maximumHorizontalFrames frameWidth frameHeight n) :
    ∃ size, imageSize maximumHorizontalFrames frameWidth frameHeight n = some size ∧
      (cursorAfter maximumHorizontalFrames frameWidth frameHeight n n).2 ≤ size := by
  obtain ⟨_, _, _, hs⟩ := sheet_size_exact maximumHorizontalFrames frameWidth frameHeight n
    hmax hn1 hr
  exact ⟨_, hs, (cursor_closed_form maximumHorizontalFrames frameWidth frameHeight n hmax hn1
    hfh).2.2⟩

/-! ## The pipeline on sheets in range -/

theorem ceilDiv_one (n : Nat) : ceilDiv n 1 = n := by
  unfold ceilDiv
  simp

theorem ceilDiv_mul_left (columns rows : Nat) (hcol : 1 ≤ columns) :
    ceilDiv (columns * rows) columns = rows := by
  unfold ceilDiv
  rw [show columns * rows + columns - 1 = (columns - 1) + columns * rows by omega,
    Nat.add_mul_div_left _ _ hcol, Nat.div_eq_of_lt (by omega)]
  simp

/-- Every byte position of a sheet of `columns * rows` cells is a byte of a row of
one of its cells. -/
theorem cell_position_exists (columns frameWidth frameHeight rows p : Nat)
    (hfw : 1 ≤ frameWidth) (hfh : 1 ≤ frameHeight) (hcol : 1 ≤ columns)
    (hp : p < columns * frameWidth * (rows * frameHeight) * PixelSize) :
    ∃ i r b, i < columns * rows ∧ r < frameHeight ∧ b < frameWidth * PixelSize ∧
      p = cellOffset columns frameWidth frameHeight i +
        r * (columns * frameWidth * PixelSize) + b := by
  have hc : 0 < frameWidth * PixelSize := Nat.mul_pos hfw (by decide)
  have hA : p / (frameWidth * PixelSize) < rows * frameHeight * columns := by
    rw [Nat.div_lt_iff_lt_mul hc]
    calc p < columns * frameWidth * (rows * frameHeight) * PixelSize := hp
      _ = rows * frameHeight * columns * (frameWidth * PixelSize) := by ring
  have hY : p / (frameWidth * PixelSize) / columns < rows * frameHeight := by
    rw [Nat.div_lt_iff_lt_mul hcol]; exact hA
  have hy : p / (frameWidth * PixelSize) / columns / frameHeight < rows := by
    rw [Nat.div_lt_iff_lt_mul hfh]; exact hY
  obtain ⟨A, hAdef⟩ : ∃ A, p / (frameWidth * PixelSize) = A := ⟨_, rfl⟩
  obtain ⟨Y, hYdef⟩ : ∃ Y, A / columns = Y := ⟨_, rfl⟩
  obtain ⟨y, hydef⟩ : ∃ y, Y / frameHeight = y := ⟨_, rfl⟩
  rw [hAdef, hYdef, hydef] at hy
  have hx : A % columns < columns := Nat.mod_lt _ hcol
  have hr : Y % frameHeight < frameHeight := Nat.mod_lt _ hfh
  have hb : p % (frameWidth * PixelSize) < frameWidth * PixelSize := Nat.mod_lt _ hc
  have hdiv : (y * columns + A % columns) / columns = y := by
    rw [Nat.add_comm, Nat.add_mul_div_right _ _ hcol, Nat.div_eq_of_lt hx]; simp
  have hmod : (y * columns + A % columns) % columns = A % columns := by
    rw [Nat.add_comm, Nat.add_mul_mod_self_right, Nat.mod_eq_of_lt hx]
  refine ⟨y * columns + A % columns, Y % frameHeight, p % (frameWidth * PixelSize), ?_, hr, hb, ?_⟩
  · calc y * columns + A % columns < y * columns + columns := by omega
      _ = (y + 1) * columns := by ring
      _ ≤ rows * columns := Nat.mul_le_mul_right _ hy
      _ = columns * rows := Nat.mul_comm _ _
  · rw [cell_position, hdiv, hmod]
    have e1 : y * frameHeight + Y % frameHeight = Y := by
      rw [← hydef, Nat.mul_comm]; exact Nat.div_add_mod Y frameHeight
    have e2 : Y * columns + A % columns = A := by
      rw [← hYdef, Nat.mul_comm]; exact Nat.div_add_mod A columns
    rw [e1, e2, ← hAdef, Nat.mul_comm]
    exact (Nat.div_add_mod p (frameWidth * PixelSize)).symm

/-- Round trip in range: for a sheet of at most `2 ^ 24` pixels and a grid that
divides it evenly, extracting all frames (step 1) and composing them with
`columns` frames per row gives the encoder the source buffer and the source size. -/
theorem roundtrip_in_range (source : ImageData) (sourceWidth sourceHeight columns rows
    fuel : Nat)
    (hlen : source.length = sourceWidth * sourceHeight * 4)
    (hw1 : 1 ≤ sourceWidth) (hh1 : 1 ≤ sourceHeight) (hcols : 1 ≤ columns) (hrows : 1 ≤ rows)
    (hdw : sourceWidth % columns = 0) (hdh : sourceHeight % rows = 0)
    (hsmall : sourceWidth * sourceHeight ≤ 2 ^ 24)
    (hfuel : columns * rows < fuel) :
    main (.ok (source, sourceWidth, sourceHeight)) columns rows columns 1 fuel =
      some (.saved { image := source, width := sourceWidth, height := sourceHeight }) := by
  have hW : columns * (sourceWidth / columns) = sourceWidth :=
    Nat.mul_div_cancel' (Nat.dvd_of_mod_eq_zero hdw)
  have hH : rows * (sourceHeight / rows) = sourceHeight :=
    Nat.mul_div_cancel' (Nat.dvd_of_mod_eq_zero hdh)
  obtain ⟨fw, hfwdef⟩ : ∃ fw, sourceWidth / columns = fw := ⟨_, rfl⟩
  obtain ⟨fh, hfhdef⟩ : ∃ fh, sourceHeight / rows = fh := ⟨_, rfl⟩
  rw [hfwdef] at hW
  rw [hfhdef] at hH
  have hfw : 1 ≤ fw := by
    rcases Nat.eq_zero_or_pos fw with h | h
    · subst h; omega
    · exact h
  have hfh : 1 ≤ fh := by
    rcases Nat.eq_zero_or_pos fh with h | h
    · subst h; omega
    · exact h
  have hm : ceilDiv (columns * rows) 1 = columns * rows := ceilDiv_one _
  have hoc : horizontalFrames columns (columns * rows) = columns := by
    unfold horizontalFrames
    exact Nat.min_eq_left (Nat.le_mul_of_pos_right _ hrows)
  have hrows' : ceilDiv (columns * rows) columns = rows := ceilDiv_mul_left _ _ hcols
  have hn : columns * rows ≤ sourceWidth * sourceHeight := by
    rw [← hW, ← hH]
    exact Nat.mul_le_mul (Nat.le_mul_of_pos_right _ hfw) (Nat.le_mul_of_pos_right _ hfh)
  have hWH : sourceWidth ≤ sourceWidth * sourceHeight := Nat.le_mul_of_pos_right _ hh1
  have hHW : sourceHeight ≤ sourceWidth * sourceHeight := Nat.le_mul_of_pos_left _ hw1
  have hfit : SourceFits sourceWidth sourceHeight := by
    unfold SourceFits PixelSize
    omega
  obtain ⟨sheet, hs, hwid, hhei, hl, hplace, _⟩ := main_spec source sourceWidth sourceHeight
    columns rows columns 1 fuel hlen hcols hrows hcols (le_refl 1) (by rw [hm]; exact hfuel)
    hfit (by omega)
    (by
      unfold InRange
      rw [hm, hoc, hrows', hfwdef, hfhdef, hW, hH]
      refine ⟨le_trans hn hsmall, ?_, ?_, hsmall⟩
      · exact le_trans (Nat.le_mul_of_pos_right _ hh1) hsmall
      · exact le_trans (Nat.le_mul_of_pos_left _ hw1) hsmall)
  simp only [hm, hoc, hfwdef, hfhdef, hrows', hW, hH] at hwid hhei hplace
  have himg : sheet.image = source := by
    apply List.ext_getElem?
    intro p
    by_cases hp : p < sourceWidth * sourceHeight * 4
    · obtain ⟨i, r, b, hi, hr, hb, hpe⟩ := cell_position_exists columns fw fh rows p hfw hfh hcols
        (by rw [hW, hH]; exact hp)
      have := hplace i r b hi hr hb
      rw [hW] at hpe
      rw [frameOffset_eq_cellOffset _ _ _ _ _ (by rw [Nat.mul_one]; exact hi)
        (by unfold PixelSize; omega) (by unfold PixelSize; omega),
        hfwdef, hfhdef, Nat.mul_one, ← hpe] at this
      exact this
    · rw [List.getElem?_eq_none (by rw [hl, hwid, hhei]; exact Nat.le_of_not_lt hp),
        List.getElem?_eq_none (by rw [hlen]; exact Nat.le_of_not_lt hp)]
  rw [hs]
  congr 2
  cases sheet
  simp only at himg hwid hhei
  rw [himg, hwid, hhei]

/-- The scenario of a 30 x 10 sheet with a 3 x 1 grid, a limit of two columns and
step 1: the output sheet is 20 x 20 pixels, frames `0` and `1` fill the top row, frame
`2` the bottom-left cell, and the bottom-right cell is zero. -/
theorem scenario_30x10 (source : ImageData) (fuel : Nat)
    (hlen : source.length = 30 * 10 * 4) (hfuel : 3 < fuel) :
    ∃ sheet, main (.ok (source, 30, 10)) 3 1 2 1 fuel = some (.saved sheet) ∧
      sheet.width = 20 ∧ sheet.height = 20 ∧ sheet.image.length = 20 * 20 * 4 ∧
      ∀ r b, r < 10 → b < 10 * 4 →
        sheet.image[r * (20 * 4) + b]? = source[r * (30 * 4) + b]? ∧
        sheet.image[r * (20 * 4) + 10 * 4 + b]? = source[r * (30 * 4) + 10 * 4 + b]? ∧
        sheet.image[(10 + r) * (20 * 4) + b]? = source[r * (30 * 4) + 20 * 4 + b]? ∧
        sheet.image[(10 + r) * (20 * 4) + 10 * 4 + b]? = some 0 := by
  obtain ⟨sheet, hs, hw, hh, hl, hplace, hzero⟩ := main_spec source 30 10 3 1 2 1 fuel hlen
    (by decide) (by decide) (by decide) (by decide) hfuel (by unfold SourceFits; decide)
    (by decide) (by unfold InRange; decide)
  have e1 : ceilDiv (3 * 1) 1 = 3 := by decide
  have e2 : horizontalFrames 2 3 = 2 := by decide
  have e3 : ceilDiv 3 2 = 2 := by decide
  simp only [e1, e2, e3] at hw hh hplace hzero
  have hlen1 : sheet.image.length = 20 * 20 * 4 := by rw [hl, hw, hh]; rfl
  refine ⟨sheet, hs, hw, hh, hlen1, ?_⟩
  intro r b hr hb
  have h0 := hplace 0 r b (by decide) hr hb
  have h1 := hplace 1 r b (by decide) hr hb
  have h2 := hplace 2 r b (by decide) hr hb
  simp only [cellOffset, frameOffset, unsignedMul, PixelSize] at h0 h1 h2
  norm_num at h0 h1 h2
  refine ⟨?_, ?_, ?_, ?_⟩
  · rw [show r * (20 * 4) + b = r * 80 + b by ring, show r * (30 * 4) + b = r * 120 + b by ring]
    exact h0
  · rw [show r * (20 * 4) + 10 * 4 + b = 40 + r * 80 + b by ring,
      show r * (30 * 4) + 10 * 4 + b = 40 + r * 120 + b by ring]
    exact h1
  · rw [show (10 + r) * (20 * 4) + b = 800 + r * 80 + b by ring,
      show r * (30 * 4) + 20 * 4 + b = 80 + r * 120 + b by ring]
    exact h2
  · apply hzero
    · rw [hlen1]; omega
    · intro k r1 b1 hk hr1 hb1 e
      have e' : cellOffset 2 10 10 3 + r * (2 * 10 * PixelSize) + b =
          cellOffset 2 10 10 k + r1 * (2 * 10 * PixelSize) + b1 := by
        rw [show cellOffset 2 10 10 k + r1 * (2 * 10 * PixelSize) + b1 =
          cellOffset 2 (30 / 3) (10 / 1) k + r1 * (2 * (30 / 3) * PixelSize) + b1 from rfl, ← e]
        simp only [cellOffset, PixelSize]
        norm_num
        ring
      have := (cell_position_unique 2 10 10 3 k r r1 b b1 (by decide) hr
        (show r1 < 10 from hr1) hb (show b1 < 10 * PixelSize from hb1) e').1
      omega

/-! ## The claims -/

/-- C3. Extraction, for a frame below 2 GiB: when the arguments are `int` values, the
`int` product `framePixelLineSize * frameHeight` of line 52 does not overflow and the
last source row of the frame ends inside the source buffer, that is
`o + (frameHeight - 1) * filePixelLineSize + framePixelLineSize` is at most its length,
`getFrame` returns a new buffer of exactly `framePixelLineSize * frameHeight` bytes, and
byte `b` of its row `r` is the source byte at `o + r * filePixelLineSize + b`.  This
holds for every pair of strides, so for
`framePixelLineSize = frameWidth * 4 ≤ filePixelLineSize = sourceWidth * 4` too.  The
source is a value that `getFrame` only reads. -/
theorem getFrame_extracts (source : ImageData) (o framePixelLineSize filePixelLineSize
    frameHeight : Nat)
    (_hargs : framePixelLineSize < 2 ^ 31 ∧ filePixelLineSize < 2 ^ 31 ∧ frameHeight < 2 ^ 31)
    (hsize : framePixelLineSize * frameHeight < 2 ^ 31)
    (hb : 0 < frameHeight →
      o + (frameHeight - 1) * filePixelLineSize + framePixelLineSize ≤ source.length) :
    ∃ frame, getFrame source o framePixelLineSize filePixelLineSize frameHeight = some frame ∧
      frame.length = framePixelLineSize * frameHeight ∧
      ∀ r b, r < frameHeight → b < framePixelLineSize →
        o + r * filePixelLineSize + b < source.length ∧
        frame[r * framePixelLineSize + b]? = source[o + r * filePixelLineSize + b]? := by
  have hrow : ∀ r, r < frameHeight →
      o + r * filePixelLineSize + framePixelLineSize ≤ source.length := by
    intro r hr
    have h1 := hb (by omega)
    have h2 : r * filePixelLineSize ≤ (frameHeight - 1) * filePixelLineSize :=
      Nat.mul_le_mul_right _ (by omega)
    omega
  obtain ⟨frame, hf, hl, hrows⟩ :=
    getFrame_spec source o framePixelLineSize filePixelLineSize frameHeight hsize hrow
  exact ⟨frame, hf, hl, fun r b hr hb' => ⟨by have := hrow r hr; omega, hrows r b hr hb'⟩⟩

theorem getFrame_extracts_witness :
    ∃ frame, getFrame [0, 1, 2, 3, 4, 5, 6, 7, 8, 9, 10, 11, 12, 13, 14, 15] 4 4 8 2 =
        some frame ∧
      frame.length = 4 * 2 ∧
      ∀ r b, r < 2 → b < 4 →
        4 + r * 8 + b < [(0 : Byte), 1, 2, 3, 4, 5, 6, 7, 8, 9, 10, 11, 12, 13, 14, 15].length ∧
        frame[r * 4 + b]? =
          [(0 : Byte), 1, 2, 3, 4, 5, 6, 7, 8, 9, 10, 11, 12, 13, 14, 15][4 + r * 8 + b]? :=
  getFrame_extracts [0, 1, 2, 3, 4, 5, 6, 7, 8, 9, 10, 11, 12, 13, 14, 15] 4 4 8 2
    (by decide) (by decide) (fun _ => by decide)

/-- C3, as stated: a frame of 23171 x 23171 pixels that is the whole of its source.  The
strides are `23171 * 4 = 92684` and the frame lies inside the source, but the `int`
product `92684 * 23171 = 2147581964` of line 52 is above `2 ^ 31 - 1`: the size of the
new buffer overflows and `getFrame` returns no frame. -/
theorem getFrame_size_overflows :
    23171 * 4 ≤ 23171 * 4 ∧
      0 + (23171 - 1) * (23171 * 4) + 23171 * 4 ≤
        (List.replicate (23171 * 23171 * 4) (1 : Byte)).length ∧
      2 ^ 31 ≤ 23171 * 4 * 23171 ∧
      getFrame (List.replicate (23171 * 23171 * 4) 1) 0 (23171 * 4) (23171 * 4) 23171 = none :=
  ⟨le_refl _, by rw [List.length_replicate], by decide,
    getFrame_none_of_le _ 0 (23171 * 4) (23171 * 4) 23171 (by decide)⟩

/-- C8. Step subsampling: with at least one frame, a step of at least one that keeps the
`int` frame index from overflowing (`columns * rows + step ≤ 2 ^ 31`), and fuel for one
test of the loop condition more than there are indices, the loop of `main` over the
`columns * rows` frames visits exactly the indices `0, step, 2 * step, ...` below `columns * rows`, in
strictly ascending order; there are `ceil (columns * rows / step)` of them, and the list
of frames is the list of the extractions at these indices, in this order (undefined
when one of them is). -/
theorem selection_by_step (columns rows step fuel : Nat) (_hn : 1 ≤ columns * rows)
    (hstep : 1 ≤ step) (hsel : columns * rows + step ≤ 2 ^ 31)
    (hfuel : ceilDiv (columns * rows) step < fuel) :
    intMul columns rows = some (columns * rows) ∧
      selectedIndices (columns * rows) step fuel =
        some ((List.range (ceilDiv (columns * rows) step)).map (· * step)) ∧
      ((List.range (ceilDiv (columns * rows) step)).map (· * step)).length =
        ceilDiv (columns * rows) step ∧
      (∀ k, k < ceilDiv (columns * rows) step ↔ k * step < columns * rows) ∧
      List.Pairwise (· < ·) ((List.range (ceilDiv (columns * rows) step)).map (· * step)) ∧
      ∀ (imageData : ImageData) (fileWidth fileHeight : Nat),
        mainLoop (columns * rows) step
            (extractFrame imageData fileWidth fileHeight columns rows) fuel 0 [] =
          ((List.range (ceilDiv (columns * rows) step)).map (· * step)).mapM
            (extractFrame imageData fileWidth fileHeight columns rows) := by
  have hfun : (fun k => 0 + k * step) = (· * step) := by
    funext k; simp
  have hlast : 0 + ceilDiv (columns * rows) step * step < 2 ^ 31 := by
    have := ceilDiv_mul_lt (columns * rows) step hstep
    omega
  refine ⟨intMul_of_lt _ _ (by omega), ?_, by simp, fun k => lt_ceilDiv_iff _ _ k hstep, ?_, ?_⟩
  · unfold selectedIndices
    rw [mainLoop_run (columns * rows) step some hstep _ 0 [] fuel (by simp) hfuel hlast, hfun,
      mapM_some_eq]
    simp
  · rw [List.pairwise_map]
    exact List.Pairwise.imp (fun h => Nat.mul_lt_mul_of_pos_right h hstep)
      (List.pairwise_lt_range _)
  · intro imageData fileWidth fileHeight
    rw [mainLoop_run (columns * rows) step _ hstep _ 0 [] fuel (by simp) hfuel hlast, hfun]
    cases List.mapM (extractFrame imageData fileWidth fileHeight columns rows)
      (List.map (· * step) (List.range (ceilDiv (columns * rows) step))) <;> simp

theorem selection_by_step_witness :
    selectedIndices (4 * 4) 2 9 = some [0, 2, 4, 6, 8, 10, 12, 14] ∧
      [0, 2, 4, 6, 8, 10, 12, 14].length = 8 :=
  ⟨(selection_by_step 4 4 2 9 (by decide) (by decide) (by decide) (by decide)).2.1, rfl⟩

/-- C8, as stated: a grid of 32768 x 32769 frames with step `2 ^ 30`.  The frame number
`32768 * 32769 = 2 ^ 30 + 32768` is an `int` and the indices below it are `0` and
`2 ^ 30`, but after the frame `2 ^ 30` the loop adds the step to the `int` index, and
`2 ^ 30 + 2 ^ 30` overflows: the loop does not end with the two frames, with whatever
fuel. -/
theorem selection_index_overflows :
    1 ≤ 32768 * 32769 ∧ 1 ≤ 2 ^ 30 ∧
      intMul 32768 32769 = some (32768 * 32769) ∧
      (List.range (ceilDiv (32768 * 32769) (2 ^ 30))).map (· * 2 ^ 30) = [0, 2 ^ 30] ∧
      intAdd (2 ^ 30) (2 ^ 30) = none ∧
      ∀ fuel, selectedIndices (32768 * 32769) (2 ^ 30) fuel = none := by
  refine ⟨by decide, by decide, by decide, by decide, by decide, fun fuel => ?_⟩
  rcases fuel with _ | _ | fuel <;> rfl

/-- C10. Extraction regions are disjoint, for a source below 4 GiB: for a grid that
divides the source evenly (`columns ∣ sourceWidth`, `rows ∣ sourceHeight`) and two
different frame indices below `columns * rows`, no source byte position
`offset i + r * sourceWidth * 4 + b` (`r < frameHeight`, `b < frameWidth * 4`) read for
frame `i` is a position read for frame `j`; and when frames are not empty the offsets
of the two frames differ. -/
theorem extraction_regions_disjoint (sourceWidth sourceHeight columns rows i j : Nat)
    (hw : columns ∣ sourceWidth) (_hh : rows ∣ sourceHeight)
    (hi : i < columns * rows) (hj : j < columns * rows) (hij : i ≠ j)
    (hsize : sourceWidth * sourceHeight * 4 < 2 ^ 32) :
    (∀ r s b c, r < sourceHeight / rows → s < sourceHeight / rows →
      b < sourceWidth / columns * 4 → c < sourceWidth / columns * 4 →
      frameOffset sourceWidth sourceHeight columns rows i + r * sourceWidth * 4 + b ≠
        frameOffset sourceWidth sourceHeight columns rows j + s * sourceWidth * 4 + c) ∧
    (0 < sourceWidth / columns → 0 < sourceHeight / rows →
      frameOffset sourceWidth sourceHeight columns rows i ≠
        frameOffset sourceWidth sourceHeight columns rows j) := by
  have hcol : 1 ≤ columns := by
    rcases Nat.eq_zero_or_pos columns with h | h
    · subst h; simp at hi
    · exact h
  have hW : columns * (sourceWidth / columns) = sourceWidth := Nat.mul_div_cancel' hw
  have key : ∀ r s b c, r < sourceHeight / rows → s < sourceHeight / rows →
      b < sourceWidth / columns * 4 → c < sourceWidth / columns * 4 →
      frameOffset sourceWidth sourceHeight columns rows i + r * sourceWidth * 4 + b ≠
        frameOffset sourceWidth sourceHeight columns rows j + s * sourceWidth * 4 + c := by
    intro r s b c hr hs hb hc e
    apply hij
    have hH : 1 ≤ sourceHeight := by
      have := Nat.div_le_self sourceHeight rows
      omega
    have hrow : sourceWidth * PixelSize < 2 ^ 32 := by
      have : sourceWidth * 1 ≤ sourceWidth * sourceHeight := Nat.mul_le_mul_left _ hH
      unfold PixelSize
      omega
    rw [frameOffset_eq_cellOffset _ _ _ _ _ hi hrow hsize,
      frameOffset_eq_cellOffset _ _ _ _ _ hj hrow hsize] at e
    refine (cell_position_unique columns (sourceWidth / columns) (sourceHeight / rows)
      i j r s b c hcol hr hs hb hc ?_).1
    have hstride : ∀ t, t * (columns * (sourceWidth / columns) * PixelSize) =
        t * sourceWidth * 4 := by
      intro t; rw [hW]; simp only [PixelSize]; ring
    rw [hstride, hstride]
    exact e
  refine ⟨key, fun hfw hfh e => ?_⟩
  have := key 0 0 0 0 hfh hfh (by omega) (by omega)
  simp only [Nat.zero_mul, Nat.add_zero] at this
  exact this e

theorem extraction_regions_disjoint_witness :
    (∀ r s b c, r < 4 / 2 → s < 4 / 2 → b < 6 / 3 * 4 → c < 6 / 3 * 4 →
      frameOffset 6 4 3 2 1 + r * 6 * 4 + b ≠ frameOffset 6 4 3 2 4 + s * 6 * 4 + c) ∧
    (0 < 6 / 3 → 0 < 4 / 2 → frameOffset 6 4 3 2 1 ≠ frameOffset 6 4 3 2 4) :=
  extraction_regions_disjoint 6 4 3 2 1 4 (by decide) (by decide) (by decide) (by decide)
    (by decide) (by decide)

/-- C10, as stated: a source of 32768 x 32770 pixels cut into one column and 32770 rows,
frames of 32768 x 1 pixels and `2 ^ 17` bytes each.  For frame `32768` the `unsigned`
product `y * fileFramesLineSize = 32768 * 2 ^ 17 = 2 ^ 32` of line 150 wraps around to
`0`, the offset of frame `0`: the two frames are read from the same byte positions. -/
theorem regions_coincide_after_wrap :
    1 ∣ 32768 ∧ 32770 ∣ 32770 ∧ 0 < 1 * 32770 ∧ 32768 < 1 * 32770 ∧ (0 : Nat) ≠ 32768 ∧
      0 < 32770 / 32770 ∧ 0 < 32768 / 1 * 4 ∧
      frameOffset 32768 32770 1 32770 0 + 0 * 32768 * 4 + 0 =
        frameOffset 32768 32770 1 32770 32768 + 0 * 32768 * 4 + 0 ∧
      frameOffset 32768 32770 1 32770 0 = frameOffset 32768 32770 1 32770 32768 := by
  decide

/-- C4. Output dimensions, at one frame of 1 x 16777217 pixels with a limit of one
column: the height `saveFile` computes at line 68 and gives to the encoder is
`16777216`, not `ceil (1 / 1) * 16777217`, because the product is a `float`. -/
theorem fileHeight_rounds_16777217 :
    (fileHeight 1 16777217 1).map F32.toNat = some 16777216 ∧
      ceilDiv 1 (horizontalFrames 1 1) * 16777217 = 16777217 := by
  decide

/-- C2. Placement, at one frame of 4099 x 4099 pixels with a limit of one column: the
image of line 71 has `67207200` bytes, four less than the frame, and `saveFile` writes
the last pixel of the frame outside it, which is undefined behaviour. -/
theorem placement_undefined_4099 :
    imageSize 1 4099 4099 1 = some 67207200 ∧
      (List.replicate (4099 * 4 * 4099) (1 : Byte)).length = 67207204 ∧
      saveFile 1 4099 4099 [List.replicate (4099 * 4 * 4099) 1] = none :=
  ⟨by decide, by rw [List.length_replicate],
    saveFile_single_short 1 4099 4099 67207200 _ (by decide) (by decide) (by decide)
      (by rw [List.length_replicate]; decide) (by decide) (by decide)⟩

/-- C1. Round trip, at a source sheet of 4099 x 4099 pixels cut as a 1 x 1 grid and
composed with a limit of one column: no run of `main` ends with an output image,
because the image of line 71 is four bytes shorter than the source. -/
theorem roundtrip_undefined_4099 (fuel : Nat) :
    main (.ok (List.replicate (4099 * 4099 * 4) 1, 4099, 4099)) 1 1 1 1 fuel = none :=
  main_single_short _ 4099 4099 1 1 1 1 67207200 (by rw [List.length_replicate]; decide) (by decide) (by decide)
    (by decide) (by decide) (by decide) (by unfold SourceFits; decide) (by decide) (by decide)
    (by decide) (by decide) fuel

/-- C5. End-to-end reflow, at a source sheet of 8198 x 4099 pixels with a 2 x 1 grid,
step 2 and a limit of one column: source frame `0` is the one selected frame, and no
run of `main` ends with an output image holding it, because the image of line 71 is
four bytes shorter than the frame. -/
theorem reflow_undefined_8198 (fuel : Nat) :
    main (.ok (List.replicate (8198 * 4099 * 4) 1, 8198, 4099)) 2 1 1 2 fuel = none :=
  main_single_short _ 8198 4099 2 1 1 2 67207200 (by rw [List.length_replicate]; decide) (by decide) (by decide)
    (by decide) (by decide) (by decide) (by unfold SourceFits; decide) (by decide) (by decide)
    (by decide) (by decide) fuel

/-- C7. Trailing cells stay zero, at three frames of 4099 x 4099 pixels with a limit of
two columns: the sheet has 2 x 2 cells and cell `3` is the trailing one, the encoder is
given the size 8198 x 8198, but the image of line 71 has `268828800` bytes, sixteen
less than `8198 * 8198 * 4`, so the last byte of cell `3` (row `4098`, byte `16395`) is
no byte of the image. -/
theorem trailing_cell_cut_short :
    ∃ sheet, saveFile 2 4099 4099 [List.replicate (4099 * 4 * 4099) 1,
          List.replicate (4099 * 4 * 4099) 1, List.replicate (4099 * 4 * 4099) 1] =
        some sheet ∧
      sheet.width = 8198 ∧ sheet.height = 8198 ∧
      ceilDiv 3 (horizontalFrames 2 3) * horizontalFrames 2 3 = 4 ∧
      sheet.image.length = 268828800 ∧
      sheet.image[((3 / 2) * 4099 + 4098) * 8198 * 4 + (3 % 2) * 4099 * 4 + 16395]? = none := by
  obtain ⟨sheet, hs, hw, hh, hl⟩ :=
    saveFile_three_4099 (List.replicate (4099 * 4 * 4099) 1) (by rw [List.length_replicate])
  refine ⟨sheet, hs, hw, hh, by decide, hl, ?_⟩
  rw [List.getElem?_eq_none]
  rw [hl]
  decide

/-- C6. The scenario of a 20 x 20 sheet with a 2 x 2 grid, a limit of one column and
step 1, as the code runs it: all four frames of 10 x 10 pixels are selected, the second
and the fourth too, so the output sheet is 10 pixels wide and 40 pixels high, not 20:
the four frames are stacked vertically in index order, and block `k` of ten output rows
holds the pixels of input frame `k`. -/
theorem scenario_2x2_stacks_four (source : ImageData) (fuel : Nat)
    (hlen : source.length = 20 * 20 * 4) (hfuel : 4 < fuel) :
    ∃ sheet, main (.ok (source, 20, 20)) 2 2 1 1 fuel = some (.saved sheet) ∧
      sheet.width = 10 ∧ sheet.height = 40 ∧ sheet.image.length = 10 * 40 * 4 ∧
      ∀ k r b, k < 4 → r < 10 → b < 10 * 4 →
        sheet.image[(k * 10 + r) * (10 * 4) + b]? =
          source[((k / 2) * 10 + r) * (20 * 4) + (k % 2) * (10 * 4) + b]? := by
  obtain ⟨sheet, hs, hw, hh, hl, hplace, _⟩ := main_spec source 20 20 2 2 1 1 fuel hlen
    (by decide) (by decide) (by decide) (by decide) hfuel (by unfold SourceFits; decide)
    (by decide) (by unfold InRange; decide)
  have e1 : ceilDiv (2 * 2) 1 = 4 := by decide
  have e2 : horizontalFrames 1 4 = 1 := by decide
  have e3 : ceilDiv 4 1 = 4 := by decide
  rw [e1, e2] at hw hh hplace
  rw [e3] at hh
  refine ⟨sheet, hs, hw, hh, by rw [hl, hw, hh]; rfl, ?_⟩
  intro k r b hk hr hb
  have := hplace k r b hk hr hb
  rw [frameOffset_eq_cellOffset 20 20 2 2 (k * 1) (by omega) (by decide) (by decide)] at this
  simp only [cellOffset, PixelSize, Nat.div_one, Nat.mod_one, Nat.mul_one,
    Nat.zero_mul, Nat.add_zero, Nat.one_mul] at this
  norm_num at this
  rw [show (k * 10 + r) * (10 * 4) + b = k * 400 + r * 40 + b by ring,
    show (k / 2 * 10 + r) * (20 * 4) + k % 2 * (10 * 4) + b =
      k / 2 * 800 + k % 2 * 40 + r * 80 + b by ring]
  exact this

theorem scenario_2x2_stacks_four_witness :
    ∃ sheet, main (.ok (List.replicate 1600 7, 20, 20)) 2 2 1 1 5 = some (.saved sheet) ∧
      sheet.width = 10 ∧ sheet.height = 40 ∧ sheet.image.length = 10 * 40 * 4 ∧
      ∀ k r b, k < 4 → r < 10 → b < 10 * 4 →
        sheet.image[(k * 10 + r) * (10 * 4) + b]? =
          (List.replicate 1600 (7 : Byte))[((k / 2) * 10 + r) * (20 * 4) + (k % 2) * (10 * 4) + b]? :=
  scenario_2x2_stacks_four (List.replicate 1600 7) 5 (by rw [List.length_replicate])
    (by decide)

/-- No run of `main` on a 20 x 20 sheet with a 2 x 2 grid, a limit of one column and
step 1 gives the encoder a sheet of 10 x 20 pixels. -/
theorem scenario_2x2_not_10x20 :
    ¬ ∃ fuel sheet, main (.ok (List.replicate 1600 7, 20, 20)) 2 2 1 1 fuel =
        some (.saved sheet) ∧ sheet.width = 10 ∧ sheet.height = 20 := by
  rintro ⟨fuel, sheet, hs, _, hh⟩
  obtain ⟨sheet1, hs1, _, hh1, _⟩ := main_spec (List.replicate 1600 7) 20 20 2 2 1 1 (fuel + 5)
    (by rw [List.length_replicate]; rfl)
    (by decide) (by decide) (by decide) (by decide)
    (by have : ceilDiv (2 * 2) 1 = 4 := by decide
        omega)
    (by unfold SourceFits; decide) (by decide) (by unfold InRange; decide)
  rw [main_mono _ _ _ _ _ _ 5 _ hs] at hs1
  simp only [Option.some.injEq, Exit.saved.injEq] at hs1
  subst hs1
  rw [hh] at hh1
  revert hh1
  decide

/-- C9. Geometry is not checked: `main` never compares the image size with the grid.
For every decoded image below 2 GiB and every grid with at least one column and one
row, whether it divides the image evenly or not (positive step and column limit, `int`
arguments and frame index, output sheet in range, enough fuel), `main` cuts frames of
`fileWidth / columns` by `fileHeight / rows` pixels (rounded down), reaches `saveFile`
and returns `0` with a sheet given to the encoder. -/
theorem main_has_no_geometry_check (imageData : ImageData) (fileWidth fileHeight columns rows
    maxColumns step fuel : Nat)
    (hlen : imageData.length = fileWidth * fileHeight * 4)
    (hcols : 1 ≤ columns) (hrows : 1 ≤ rows) (hmax : 1 ≤ maxColumns) (hstep : 1 ≤ step)
    (hfuel : ceilDiv (columns * rows) step < fuel)
    (_hlimit : maxColumns < 2 ^ 31)
    (hfit : SourceFits fileWidth fileHeight) (hsel : columns * rows + step ≤ 2 ^ 31)
    (hr : InRange maxColumns (fileWidth / columns) (fileHeight / rows)
      (ceilDiv (columns * rows) step)) :
    ∃ sheet, main (.ok (imageData, fileWidth, fileHeight)) columns rows maxColumns step fuel =
        some (.saved sheet) ∧
      sheet.width =
        min maxColumns (ceilDiv (columns * rows) step) * (fileWidth / columns) ∧
      sheet.height =
        ceilDiv (ceilDiv (columns * rows) step) (min maxColumns (ceilDiv (columns * rows) step)) *
          (fileHeight / rows) := by
  obtain ⟨sheet, hs, hw, hh, _⟩ := main_spec imageData fileWidth fileHeight columns rows
    maxColumns step fuel hlen hcols hrows hmax hstep hfuel hfit hsel hr
  exact ⟨sheet, hs, hw, hh⟩

theorem main_has_no_geometry_check_witness :
    3 % 2 ≠ 0 ∧
    (∃ sheet, main (.ok ([0, 1, 2, 3, 4, 5, 6, 7, 8, 9, 10, 11], 3, 1)) 2 1 2 1 3 =
        some (.saved sheet) ∧
      sheet.width = min 2 (ceilDiv (2 * 1) 1) * (3 / 2) ∧
      sheet.height = ceilDiv (ceilDiv (2 * 1) 1) (min 2 (ceilDiv (2 * 1) 1)) * (1 / 1)) :=
  ⟨by decide,
    main_has_no_geometry_check [0, 1, 2, 3, 4, 5, 6, 7, 8, 9, 10, 11] 3 1 2 1 2 1 3
      (by decide) (by decide) (by decide) (by decide) (by decide) (by decide) (by decide)
      (by unfold SourceFits; decide) (by decide) (by unfold InRange; decide)⟩

/-- C9, as stated: a decoded image 3 pixels wide is cut into 2 columns (3 is not
divisible by 2) and the run does not fail: it ends in `saveFile` with a sheet of 2 x 1
pixels for the encoder. -/
theorem uneven_grid_is_saved :
    3 % 2 ≠ 0 ∧
      main (.ok ([0, 1, 2, 3, 4, 5, 6, 7, 8, 9, 10, 11], 3, 1)) 2 1 2 1 3 =
        some (.saved { image := [0, 1, 2, 3, 4, 5, 6, 7], width := 2, height := 1 }) := by
  decide

/-- C11. No out-of-bounds access, at a source sheet of 8198 x 4099 pixels with a 2 x 1
grid, step 1 and a limit of two columns: every read of `getFrame` is inside the source,
but the image of line 71 has `134414400` bytes and the last byte `addFrame` writes for
frame `1` (row `4098`, byte `16395`) is at position `134414407`, outside it; no run of
`main` ends. -/
theorem write_past_image_8198 :
    (∀ i r b, i < 2 * 1 → r < 4099 / 1 → b < 8198 / 2 * 4 →
      frameOffset 8198 4099 2 1 i + r * (8198 * 4) + b < 8198 * 4099 * 4) ∧
    imageSize 2 (8198 / 2) (4099 / 1) (ceilDiv (2 * 1) 1) = some 134414400 ∧
    cellOffset 2 4099 4099 1 + 4098 * (2 * 4099 * 4) + 16395 = 134414407 ∧
    ∀ fuel, main (.ok (List.replicate (8198 * 4099 * 4) 1, 8198, 4099)) 2 1 2 1 fuel = none := by
  refine ⟨?_, by decide, by decide, fun fuel => ?_⟩
  · intro i r b hi hr hb
    have := source_position_le 8198 4099 2 1 i r hi hr (by decide) (by decide)
    simp only [PixelSize] at this
    omega
  · exact main_none_of_short _ 8198 4099 2 1 2 1 134414400 1
      (by rw [List.length_replicate]; decide)
      (by decide) (by decide) (by decide) (by decide) (by unfold SourceFits; decide)
      (by decide) (by decide) (by decide) (by decide)
      (by decide) (by decide) fuel

/-- C12. The contract of `copyPixelBlock`: when the output rows do not overlap
(`sizeToCopy ≤ outputStep`) and the last row of the block lies inside the source and
inside the destination, the call returns a destination of the same length in which
byte `b` of row `r` is the source byte `src[sOff + r * inputStep + b]` and every
position outside the target rows is as before.  The source is a value the call only
reads. -/
theorem copyPixelBlock_contract (src dest : ImageData) (sOff dOff inputStep outputStep
    sizeToCopy lines : Nat) (hstep : sizeToCopy ≤ outputStep)
    (hsrc : 0 < lines → sOff + (lines - 1) * inputStep + sizeToCopy ≤ src.length)
    (hdest : 0 < lines → dOff + (lines - 1) * outputStep + sizeToCopy ≤ dest.length) :
    ∃ dest1, copyPixelBlock src inputStep outputStep sizeToCopy lines sOff dest dOff =
        some dest1 ∧
      dest1.length = dest.length ∧
      (∀ r b, r < lines → b < sizeToCopy →
        sOff + r * inputStep + b < src.length ∧
        dest1[dOff + r * outputStep + b]? = src[sOff + r * inputStep + b]?) ∧
      (∀ p, (∀ r b, r < lines → b < sizeToCopy → p ≠ dOff + r * outputStep + b) →
        dest1[p]? = dest[p]?) := by
  have hs : ∀ r, r < lines → sOff + r * inputStep + sizeToCopy ≤ src.length := by
    intro r hr
    have h1 := hsrc (by omega)
    have h2 : r * inputStep ≤ (lines - 1) * inputStep := Nat.mul_le_mul_right _ (by omega)
    omega
  have hd : ∀ r, r < lines → dOff + r * outputStep + sizeToCopy ≤ dest.length := by
    intro r hr
    have h1 := hdest (by omega)
    have h2 : r * outputStep ≤ (lines - 1) * outputStep := Nat.mul_le_mul_right _ (by omega)
    omega
  obtain ⟨dest1, h, hrows, hout⟩ := copyPixelBlock_spec src inputStep outputStep sizeToCopy
    hstep lines sOff dest dOff hs hd
  refine ⟨dest1, h, copyPixelBlock_length _ _ _ _ _ _ _ _ _ h, ?_, ?_⟩
  · intro r b hr hb
    exact ⟨by have := hs r hr; omega, hrows r b hr hb⟩
  · intro p hp
    apply hout
    intro r hr hin
    exact hp r (p - (dOff + r * outputStep)) hr (by omega) (by omega)

/-- Two rows of three bytes, read with stride 4 and written with stride 5. -/
theorem copyPixelBlock_contract_witness :
    ∃ dest1, copyPixelBlock [0, 1, 2, 3, 4, 5, 6, 7, 8, 9] 4 5 3 2 1
        [20, 21, 22, 23, 24, 25, 26, 27, 28, 29, 30, 31] 2 = some dest1 ∧
      dest1.length = [(20 : Byte), 21, 22, 23, 24, 25, 26, 27, 28, 29, 30, 31].length ∧
      (∀ r b, r < 2 → b < 3 →
        1 + r * 4 + b < [(0 : Byte), 1, 2, 3, 4, 5, 6, 7, 8, 9].length ∧
        dest1[2 + r * 5 + b]? = [(0 : Byte), 1, 2, 3, 4, 5, 6, 7, 8, 9][1 + r * 4 + b]?) ∧
      (∀ p, (∀ r b, r < 2 → b < 3 → p ≠ 2 + r * 5 + b) →
        dest1[p]? = [(20 : Byte), 21, 22, 23, 24, 25, 26, 27, 28, 29, 30, 31][p]?) :=
  copyPixelBlock_contract [0, 1, 2, 3, 4, 5, 6, 7, 8, 9]
    [20, 21, 22, 23, 24, 25, 26, 27, 28, 29, 30, 31] 1 2 4 5 3 2 (by decide)
    (fun _ => by decide) (fun _ => by decide)

/-- C13. The frame offset formula, for a source whose height, row size and size are below
`2 ^ 32` and an `int` frame number: for a grid that divides the source evenly and a
frame index below `columns * rows`, the offset
`main` computes at lines 148-150, `y * fileFramesLineSize + x * framePixelLineSize`
with `x = frameIndex % columns` and `y = frameIndex / columns`, is
`(frameIndex / columns) * (frameHeight * sourceWidth * 4) +
(frameIndex % columns) * (frameWidth * 4)`. -/
theorem frameOffset_formula (sourceWidth sourceHeight columns rows frameIndex : Nat)
    (hw : columns ∣ sourceWidth) (_hh : rows ∣ sourceHeight)
    (hi : frameIndex < columns * rows) (_hnumber : columns * rows < 2 ^ 31)
    (_hheight : sourceHeight < 2 ^ 32) (hrow : sourceWidth * 4 < 2 ^ 32)
    (hsize : sourceWidth * sourceHeight * 4 < 2 ^ 32) :
    frameOffset sourceWidth sourceHeight columns rows frameIndex =
      frameIndex / columns * (sourceHeight / rows * (sourceWidth * 4)) +
        frameIndex % columns * (sourceWidth / columns * 4) := by
  have hW : sourceWidth / columns * columns = sourceWidth := Nat.div_mul_cancel hw
  rw [frameOffset_eq_cellOffset _ _ _ _ _ hi hrow hsize]
  unfold cellOffset PixelSize
  congr 1
  congr 1
  calc columns * (sourceWidth / columns) * (sourceHeight / rows) * 4
      = sourceHeight / rows * (sourceWidth / columns * columns * 4) := by ring
    _ = sourceHeight / rows * (sourceWidth * 4) := by rw [hW]

/-- Frame `4` of a 3 x 2 grid on a sheet of 6 x 4 pixels starts at byte 56. -/
theorem frameOffset_formula_witness :
    frameOffset 6 4 3 2 4 = 4 / 3 * (4 / 2 * (6 * 4)) + 4 % 3 * (6 / 3 * 4) ∧
      frameOffset 6 4 3 2 4 = 56 :=
  ⟨frameOffset_formula 6 4 3 2 4 (by decide) (by decide) (by decide) (by decide) (by decide)
    (by decide) (by decide), by decide⟩

/-- C13, as stated: frame `32768` of a source of 32768 x 32770 pixels cut into one column
and 32770 rows.  The formula gives `32768 * (1 * (32768 * 4)) = 2 ^ 32`, but the
`unsigned` product of line 150 wraps around and `main` computes the offset `0`. -/
theorem frameOffset_wraps_around :
    1 ∣ 32768 ∧ 32770 ∣ 32770 ∧ 32768 < 1 * 32770 ∧
      frameOffset 32768 32770 1 32770 32768 = 0 ∧
      32768 / 1 * (32770 / 32770 * (32768 * 4)) + 32768 % 1 * (32768 / 1 * 4) = 2 ^ 32 ∧
      frameOffset 32768 32770 1 32770 32768 ≠
        32768 / 1 * (32770 / 32770 * (32768 * 4)) + 32768 % 1 * (32768 / 1 * 4) := by
  decide

/-- C14. The length invariant, at three frames of 4097 x 4097 pixels with a limit of two
columns: `saveFile` gives the encoder the size 8194 x 8194, and the image it allocated
at line 71 has `268566528` bytes, not `8194 * 8194 * 4 = 268566544`. -/
theorem image_length_not_width_height :
    ∃ sheet, saveFile 2 4097 4097 [List.replicate (4097 * 4 * 4097) 1,
          List.replicate (4097 * 4 * 4097) 1, List.replicate (4097 * 4 * 4097) 1] =
        some sheet ∧
      sheet.width = 8194 ∧ sheet.height = 8194 ∧ sheet.image.length = 268566528 ∧
      sheet.image.length ≠ sheet.width * sheet.height * 4 := by
  obtain ⟨sheet, hs, hw, hh, hl⟩ :=
    saveFile_three_4097 (List.replicate (4097 * 4 * 4097) 1) (by rw [List.length_replicate])
  refine ⟨sheet, hs, hw, hh, hl, ?_⟩
  rw [hl, hw, hh]
  decide

/-- C15. A single frame and a column limit of at least one: `saveFile` computes one
column and one row, the output width is the frame width, and the output height is the
frame height when the frame height is at most `2 ^ 24`. -/
theorem single_frame_is_one_cell (maximumHorizontalFrames frameWidth frameHeight : Nat)
    (hmax : 1 ≤ maximumHorizontalFrames) :
    horizontalFrames maximumHorizontalFrames 1 = 1 ∧
    (F32.div (F32.ofNat 1) (F32.ofNat (horizontalFrames maximumHorizontalFrames 1))).map
        (fun q => F32.toNat (F32.ceil q)) = some 1 ∧
    horizontalFrames maximumHorizontalFrames 1 * frameWidth = frameWidth ∧
    (frameHeight ≤ 2 ^ 24 →
      (fileHeight maximumHorizontalFrames frameHeight 1).map F32.toNat = some frameHeight) := by
  have hc : horizontalFrames maximumHorizontalFrames 1 = 1 := by
    unfold horizontalFrames; omega
  obtain ⟨q, hq, hceil⟩ := F32.ceil_div_isNat (F32.ofNat 1) (F32.ofNat 1) 1 1
    (F32.ofNat_isNat 1 (F32.representable_of_le 1 (by norm_num)))
    (F32.ofNat_isNat 1 (F32.representable_of_le 1 (by norm_num))) (le_refl 1) (le_refl 1)
    (by norm_num)
  refine ⟨hc, ?_, by rw [hc, Nat.one_mul], fun hfh => ?_⟩
  · rw [hc, hq, Option.map_some', hceil]
    rfl
  · unfold fileHeight
    rw [hc, hq, Option.map_some', Option.map_some', hceil]
    congr 1
    have h := F32.mul_isNat ⟨(1 + 1 - 1) / 1, 1⟩ (F32.ofNat frameHeight) 1 frameHeight
      ⟨by norm_num, by norm_num⟩
      (F32.ofNat_isNat _ (F32.representable_of_le _ hfh))
      (by rw [Nat.one_mul]; exact F32.representable_of_le _ hfh)
    rw [Nat.one_mul] at h
    exact F32.toNat_isNat _ _ h

/-- A single frame of 7 x 5 pixels with a limit of three columns. -/
theorem single_frame_is_one_cell_witness :
    horizontalFrames 3 1 = 1 ∧
    (F32.div (F32.ofNat 1) (F32.ofNat (horizontalFrames 3 1))).map
        (fun q => F32.toNat (F32.ceil q)) = some 1 ∧
    horizontalFrames 3 1 * 7 = 7 ∧
    (5 ≤ 2 ^ 24 → (fileHeight 3 5 1).map F32.toNat = some 5) :=
  single_frame_is_one_cell 3 7 5 (by decide)

/-- C15, as stated: with a single frame and a column limit of zero `saveFile` computes
zero columns, not one; the division of line 68 is then by zero and the run is
undefined. -/
theorem single_frame_zero_columns :
    horizontalFrames 0 1 = 0 ∧ fileHeight 0 1 1 = none ∧
      saveFile 0 1 1 [[1, 2, 3, 4]] = none := by
  decide

/-- C16. Termination for a positive step that keeps the `int` frame index from
overflowing (`columns * rows + step ≤ 2 ^ 31`): the loop of `main` over `columns * rows`
frames ends within `columns * rows` turns (the fuel `columns * rows + 1` pays for these
and the last test of the loop condition); it visits at most `columns * rows` indices,
and on a decoded image below 2 GiB it collects that many frames. -/
theorem selection_terminates (imageData : ImageData) (fileWidth fileHeight columns rows
    step : Nat) (hlen : imageData.length = fileWidth * fileHeight * 4) (hstep : 1 ≤ step)
    (hsel : columns * rows + step ≤ 2 ^ 31) (hfit : SourceFits fileWidth fileHeight) :
    (∃ indices, selectedIndices (columns * rows) step (columns * rows + 1) = some indices ∧
      indices.length ≤ columns * rows) ∧
    ∃ frames, mainLoop (columns * rows) step
        (extractFrame imageData fileWidth fileHeight columns rows) (columns * rows + 1) 0 [] =
        some frames ∧
      frames.length ≤ columns * rows := by
  have hle := ceilDiv_le_self (columns * rows) step hstep
  constructor
  · refine ⟨(List.range (ceilDiv (columns * rows) step)).map (· * step), ?_, by simpa using hle⟩
    have hfun : (fun k => 0 + k * step) = (· * step) := by
      funext k; simp
    unfold selectedIndices
    rw [mainLoop_run (columns * rows) step some hstep (ceilDiv (columns * rows) step) 0 []
      (columns * rows + 1) (by simp) (by omega)
      (by have := ceilDiv_mul_lt (columns * rows) step hstep; omega), hfun, mapM_some_eq]
    simp
  · obtain ⟨frames, hf, hcount, _⟩ := mainLoop_frames imageData fileWidth fileHeight columns rows
      step (columns * rows + 1) hlen hstep (by omega) hfit hsel
    exact ⟨frames, hf, by rw [hcount]; exact hle⟩

/-- A 2 x 2 grid on a sheet of 2 x 2 pixels with step 3. -/
theorem selection_terminates_witness :
    (∃ indices, selectedIndices (2 * 2) 3 (2 * 2 + 1) = some indices ∧
      indices.length ≤ 2 * 2) ∧
    ∃ frames, mainLoop (2 * 2) 3
        (extractFrame [0, 1, 2, 3, 4, 5, 6, 7, 8, 9, 10, 11, 12, 13, 14, 15] 2 2 2 2)
        (2 * 2 + 1) 0 [] = some frames ∧
      frames.length ≤ 2 * 2 :=
  selection_terminates [0, 1, 2, 3, 4, 5, 6, 7, 8, 9, 10, 11, 12, 13, 14, 15] 2 2 2 2 3
    (by decide) (by decide) (by decide) (by unfold SourceFits; decide)

/-- C16, as stated: with step `0` the loop of `main` over a 1 x 1 grid does not end, with
whatever fuel: it stays at frame `0`. -/
theorem zero_step_never_ends :
    ¬ ∃ fuel, (selectedIndices (1 * 1) 0 fuel).isSome ∨
      (mainLoop (1 * 1) 0 (extractFrame [1, 2, 3, 4] 1 1 1 1) fuel 0 []).isSome := by
  rintro ⟨fuel, h | h⟩
  · unfold selectedIndices at h
    rw [mainLoop_zero_step (1 * 1) some (by decide) fuel []] at h
    exact absurd h (by decide)
  · rw [mainLoop_zero_step (1 * 1) _ (by decide) fuel []] at h
    exact absurd h (by decide)

/-- C17. The usage example, `10 10 ... 10 1`: with a 10 x 10 grid and step 1 the loop of
`main` selects all hundred frames `0, 1, ..., 99`, the odd-numbered ones too; no frame
is chopped. -/
theorem usage_example_selects_all :
    selectedIndices (10 * 10) 1 101 = some (List.range 100) ∧
      (List.range 100).length = 100 ∧ 1 ∈ List.range 100 ∧ 99 ∈ List.range 100 := by
  decide

/-- C18. The cursor, at one frame of 4099 x 4099 pixels with a limit of one column: after
the frame the cursor is at `(1 / 1) * (4099 * 4099 * 4) + (1 % 1) * (4099 * 4) = 67207204`,
the closed form, and that is beyond the `67207200` bytes of the image of line 71. -/
theorem cursor_past_image_4099 :
    (cursorAfter 1 4099 4099 1 1).2 = 1 / 1 * (4099 * 4099 * 4) + 1 % 1 * (4099 * 4) ∧
      (cursorAfter 1 4099 4099 1 1).2 = 67207204 ∧
      imageSize 1 4099 4099 1 = some 67207200 := by
  decide

/-- C19. Reads stay inside the source for every grid, on a source below 2 GiB: on a source
of `sourceWidth * sourceHeight * 4` bytes and for every frame index below an `int`
frame number `columns * rows`, whether the grid divides the source evenly or not, every byte position
`offset + r * sourceWidth * 4 + b` (`r < frameHeight`, `b < frameWidth * 4`) that
`getFrame` reads is below the length of the source, and the extraction returns. -/
theorem reads_in_bounds_any_grid (source : ImageData) (sourceWidth sourceHeight columns rows
    frameIndex : Nat) (hlen : source.length = sourceWidth * sourceHeight * 4)
    (hi : frameIndex < columns * rows) (_hnumber : columns * rows < 2 ^ 31)
    (hfit : SourceFits sourceWidth sourceHeight) :
    (∀ r b, r < sourceHeight / rows → b < sourceWidth / columns * 4 →
      frameOffset sourceWidth sourceHeight columns rows frameIndex + r * (sourceWidth * 4) + b <
        source.length) ∧
    ∃ frame, extractFrame source sourceWidth sourceHeight columns rows frameIndex =
      some frame := by
  constructor
  · intro r b hr hb
    obtain ⟨h1, _, h3⟩ := hfit
    have := source_position_le sourceWidth sourceHeight columns rows frameIndex r hi hr
      (by omega) (by omega)
    simp only [PixelSize] at this
    omega
  · obtain ⟨frame, hf, _⟩ := extractFrame_spec source sourceWidth sourceHeight columns rows
      frameIndex hlen hi hfit
    exact ⟨frame, hf⟩

/-- The last frame of a 2 x 2 grid on a sheet of 5 x 3 pixels. -/
theorem reads_in_bounds_any_grid_witness :
    (∀ r b, r < 3 / 2 → b < 5 / 2 * 4 →
      frameOffset 5 3 2 2 3 + r * (5 * 4) + b < (List.replicate 60 (9 : Byte)).length) ∧
    ∃ frame, extractFrame (List.replicate 60 9) 5 3 2 2 3 = some frame :=
  reads_in_bounds_any_grid (List.replicate 60 9) 5 3 2 2 3 (by rw [List.length_replicate])
    (by decide) (by decide) (by unfold SourceFits; decide)

/-- C19, as stated: a source of 23171 x 23171 pixels cut as a 1 x 1 grid.  The row size
`92684`, the frame height `23171` and the offset `0` are what `main` passes to
`getFrame`, whose `int` product `92684 * 23171` of line 52 overflows before any byte is
read: the extraction is undefined. -/
theorem extraction_undefined_23171 :
    (List.replicate (23171 * 23171 * 4) (1 : Byte)).length = 23171 * 23171 * 4 ∧
      0 < 1 * 1 ∧ 1 ≤ 1 ∧
      toInt (unsignedMul (23171 / 1) PixelSize) = some 92684 ∧
      toInt (unsignedMul 23171 PixelSize) = some 92684 ∧
      toInt (23171 / 1) = some 23171 ∧
      intMul 92684 23171 = none ∧
      extractFrame (List.replicate (23171 * 23171 * 4) 1) 23171 23171 1 1 0 = none :=
  ⟨by rw [List.length_replicate], by decide, by decide, by decide, by decide, by decide,
    by decide,
    extractFrame_none_of_le _ 23171 23171 1 1 0 92684 92684 23171 (by decide) (by decide)
      (by decide) (by decide)⟩

/-- C20. The divisions are defined: with at least one column and one row, a positive
step that keeps the `int` frame number and frame index from overflowing and a positive
column limit, on a decoded image below 2 GiB, the divisors of lines 130, 131, 148 and
149 are not zero, the loop of `main` collects a list of frames that is not empty and
starts with source frame `0`, so `horizontalFrames` is at least one and the float
division of line 68 has a divisor that is not zero. -/
theorem divisions_defined (imageData : ImageData) (fileWidth fileHeight columns rows
    maxColumns step fuel : Nat) (hlen : imageData.length = fileWidth * fileHeight * 4)
    (hcols : 1 ≤ columns) (hrows : 1 ≤ rows) (hmax : 1 ≤ maxColumns) (hstep : 1 ≤ step)
    (hfuel : ceilDiv (columns * rows) step < fuel) (_hlimit : maxColumns < 2 ^ 31)
    (hfit : SourceFits fileWidth fileHeight) (hsel : columns * rows + step ≤ 2 ^ 31) :
    columns ≠ 0 ∧ rows ≠ 0 ∧ intMul columns rows = some (columns * rows) ∧
    ∃ frames, mainLoop (columns * rows) step
        (extractFrame imageData fileWidth fileHeight columns rows) fuel 0 [] = some frames ∧
      frames ≠ [] ∧
      frames.head? = extractFrame imageData fileWidth fileHeight columns rows 0 ∧
      1 ≤ horizontalFrames maxColumns frames.length ∧
      (F32.ofNat (horizontalFrames maxColumns frames.length)).num ≠ 0 ∧
      (F32.div (F32.ofNat frames.length)
        (F32.ofNat (horizontalFrames maxColumns frames.length))).isSome := by
  obtain ⟨frames, hf, hcount, _, hget⟩ := mainLoop_frames imageData fileWidth fileHeight columns
    rows step fuel hlen hstep hfuel hfit hsel
  have hn1 : 1 ≤ columns * rows := Nat.mul_pos hcols hrows
  have hm1 : 1 ≤ frames.length := by
    rw [hcount]; exact ceilDiv_pos _ _ hstep hn1
  have hc1 : 1 ≤ horizontalFrames maxColumns frames.length := by
    unfold horizontalFrames; omega
  have hnum := F32.ofNat_num_pos _ hc1
  refine ⟨by omega, by omega, intMul_of_lt _ _ (by omega), frames, hf, ?_, ?_, hc1,
    by omega, ?_⟩
  · intro h
    rw [h] at hm1
    simp at hm1
  · cases frames with
    | nil => simp at hm1
    | cons f rest =>
      have := hget 0 f (by simp)
      rw [Nat.zero_mul] at this
      rw [this]
      rfl
  · unfold F32.div
    rw [if_neg (by omega)]
    rfl

/-- A 2 x 1 grid on a sheet of 2 x 1 pixels, step 1 and a limit of one column. -/
theorem divisions_defined_witness :
    2 ≠ 0 ∧ 1 ≠ 0 ∧ intMul 2 1 = some (2 * 1) ∧
    ∃ frames, mainLoop (2 * 1) 1 (extractFrame [0, 1, 2, 3, 4, 5, 6, 7] 2 1 2 1) 3 0 [] =
        some frames ∧
      frames ≠ [] ∧
      frames.head? = extractFrame [0, 1, 2, 3, 4, 5, 6, 7] 2 1 2 1 0 ∧
      1 ≤ horizontalFrames 1 frames.length ∧
      (F32.ofNat (horizontalFrames 1 frames.length)).num ≠ 0 ∧
      (F32.div (F32.ofNat frames.length) (F32.ofNat (horizontalFrames 1 frames.length))).isSome :=
  divisions_defined [0, 1, 2, 3, 4, 5, 6, 7] 2 1 2 1 1 1 3 (by decide) (by decide) (by decide)
    (by decide) (by decide) (by decide) (by decide) (by unfold SourceFits; decide) (by decide)

/-- C20, as stated: a grid of 65536 x 65536 frames on an image of one pixel, with step 1
and a limit of one column.  All four arguments are at least one, but the frame number
`65536 * 65536 = 2 ^ 32` of line 125 is an `int` product that overflows: no frame list
is collected and no run of `main` ends. -/
theorem frame_number_overflows :
    1 ≤ 65536 ∧ 1 ≤ 1 ∧ 2 ^ 31 ≤ 65536 * 65536 ∧ intMul 65536 65536 = none ∧
      ∀ fuel, main (.ok ([1, 2, 3, 4], 1, 1)) 65536 65536 1 1 fuel = none := by
  refine ⟨by decide, by decide, by decide, by decide, fun fuel => ?_⟩
  unfold main
  rw [show intMul 65536 65536 = none by decide]
  rfl

end FrameChopper
